import Mathlib

/-!
Verification of the URL-rewriting, path-mapping, markup-rewriting and
overlay-stripping logic of build_wayback_site.py.

Strings are modelled as List Char.  Python string/URL primitives
(str.strip, str.split, urllib.parse.urlsplit, urllib.parse.unquote) are
embedded over ASCII character lists; the Unicode-specific behaviour of
those primitives is out of scope for every claim checked here and is
noted where it is simplified.
-/

/-- Character list of a string literal. -/
def cs (x : String) : List Char := x.data

/-- Python whitespace (str.strip with no argument), ASCII part. -/
def isPySpace (c : Char) : Bool :=
  c == ' ' || c == '\t' || c == '\n' || c == '\r' || c == '\x0b' || c == '\x0c'

/-- ASCII lower-casing of one character (str.lower restricted to ASCII). -/
def lowerChar (c : Char) : Char :=
  if 'A' ≤ c && c ≤ 'Z' then Char.ofNat (c.toNat + 32) else c

/-- str.lower over a character list. -/
def lowerL (l : List Char) : List Char := l.map lowerChar

/-- str.lstrip() -/
def pyLStrip (l : List Char) : List Char := l.dropWhile (fun c => isPySpace c)

/-- str.rstrip() -/
def pyRStrip (l : List Char) : List Char :=
  (l.reverse.dropWhile (fun c => isPySpace c)).reverse

/-- str.strip() -/
def pyStrip (l : List Char) : List Char := pyRStrip (pyLStrip l)

/-- str.startswith -/
def startsL (p l : List Char) : Bool := List.isPrefixOf p l

/-- Case-insensitive startswith (for regex matching with re.IGNORECASE). -/
def startsCI (p l : List Char) : Bool := List.isPrefixOf (lowerL p) (lowerL l)

/-- str.endswith -/
def endsL (p l : List Char) : Bool := List.isSuffixOf p l

/-- The Python operator: character in string. -/
def hasChar (c : Char) (l : List Char) : Bool := l.contains c

/-- The Python operator: string in string (substring test). -/
def hasSub (needle hay : List Char) : Bool :=
  List.isPrefixOf needle hay ||
    match hay with
    | [] => false
    | _ :: t => hasSub needle t

/-- str.lstrip(c) for a single strip character. -/
def lstripAll (c : Char) (l : List Char) : List Char := l.dropWhile (fun x => x == c)

/-- str.split(c) on a single separator character (keeps empty fields). -/
def splitOnChar (c : Char) : List Char → List (List Char)
  | [] => [[]]
  | x :: xs =>
    if x == c then [] :: splitOnChar c xs
    else
      match splitOnChar c xs with
      | [] => [[x]]
      | s :: rest => (x :: s) :: rest

/-- str.join over a list of parts (python sep.join). -/
def joinSep (sep : List Char) : List (List Char) → List Char
  | [] => []
  | [x] => x
  | x :: xs => x ++ sep ++ joinSep sep xs

/-- Helper for str.split() with no argument (split on whitespace runs). -/
def pySplitWsGo : List Char → List Char → List (List Char)
  | [], acc => if acc.isEmpty then [] else [acc.reverse]
  | c :: rest, acc =>
    if isPySpace c then
      if acc.isEmpty then pySplitWsGo rest [] else acc.reverse :: pySplitWsGo rest []
    else pySplitWsGo rest (c :: acc)

/-- str.split() with no argument: whitespace runs separate, no empty tokens. -/
def pySplitWs (l : List Char) : List (List Char) := pySplitWsGo l []

/-- ASCII letter test. -/
def isAsciiAlphaCh (c : Char) : Bool := ('a' ≤ c && c ≤ 'z') || ('A' ≤ c && c ≤ 'Z')

/-- ASCII digit test. -/
def isDigitCh (c : Char) : Bool := '0' ≤ c && c ≤ '9'

/-- urllib scheme_chars: letters, digits, plus, minus, dot. -/
def isSchemeCh (c : Char) : Bool :=
  isAsciiAlphaCh c || isDigitCh c || c == '+' || c == '-' || c == '.'

/-!
Embedding of urllib.parse.urlsplit for str input.  Follows the CPython
implementation: lstrip of C0-control-or-space characters, removal of
tab/CR/LF, optional scheme (first colon, all preceding characters in
scheme_chars, first character a letter), netloc after a leading double
slash up to the first slash, question mark or hash, then the fragment is
split at the first hash and the query at the first question mark.  The
IPv6-bracket and netloc-NFKC validation errors of CPython are not
modelled (no claim involves such inputs).
-/

structure UrlSplitResult where
  scheme : List Char
  netloc : List Char
  path : List Char
  query : List Char
  fragment : List Char
deriving DecidableEq, Repr

/-- Removal of the WHATWG unsafe bytes tab, CR, LF. -/
def dropUnsafeUrlChars (l : List Char) : List Char :=
  l.filter (fun c => !(c == '\t' || c == '\r' || c == '\n'))

/-- C0 control or space (codepoint at most 32). -/
def isC0OrSpace (c : Char) : Bool := c.toNat ≤ 32

/-- Scheme extraction: some (lowered scheme, rest) when the url has a valid
scheme before its first colon. -/
def schemeSplitL (l : List Char) : Option (List Char × List Char) :=
  let before := l.takeWhile (fun c => !(c == ':'))
  if before.length < l.length then
    match before with
    | [] => none
    | c0 :: _ =>
      if isAsciiAlphaCh c0 && before.all isSchemeCh then
        some (lowerL before, l.drop (before.length + 1))
      else none
  else none

/-- Netloc extraction after a leading double slash. -/
def netlocSplitL (l : List Char) : List Char × List Char :=
  match l with
  | '/' :: '/' :: rest =>
    let nl := rest.takeWhile (fun c => !(c == '/' || c == '?' || c == '#'))
    (nl, rest.drop nl.length)
  | _ => ([], l)

/-- Split at the first occurrence of a character; the separator is dropped.
When the character is absent the whole list is the first component, matching
the Python guard (if c in url: url.split(c, 1)). -/
def splitFirst (c : Char) (l : List Char) : List Char × List Char :=
  let before := l.takeWhile (fun x => !(x == c))
  if before.length = l.length then (l, []) else (before, l.drop (before.length + 1))

/-- urllib.parse.urlsplit. -/
def urlsplitE (url : List Char) : UrlSplitResult :=
  let u1 := dropUnsafeUrlChars (url.dropWhile isC0OrSpace)
  let sr := match schemeSplitL u1 with
    | some p => p
    | none => ([], u1)
  let nr := netlocSplitL sr.2
  let fr := splitFirst '#' nr.2
  let qr := splitFirst '?' fr.1
  ⟨sr.1, nr.1, qr.1, qr.2, fr.2⟩

/-!
Embedding of the URL Classifier/Rewriter of build_wayback_site.py
(RE_SKIP_SCHEMES, _extract_original_from_wayback, _rewrite_one_url_value,
source lines 37 and 216-280).
-/

/-- The schemes of RE_SKIP_SCHEMES (source line 37). -/
def skipSchemes : List (List Char) :=
  [cs "mailto:", cs "tel:", cs "sms:", cs "javascript:", cs "data:", cs "blob:", cs "about:"]

/-- RE_SKIP_SCHEMES.match: the value begins with one of the skip schemes,
case-insensitively. -/
def matchesSkipScheme (v : List Char) : Bool := skipSchemes.any (fun p => startsCI p v)

/-- The archive hosts recognised by _extract_original_from_wayback. -/
def waybackHosts : List (List Char) := [cs "web.archive.org", cs "www.web.archive.org"]

/-- Character class of the optional wayback flag run: the pattern [a-z_]
under re.IGNORECASE. -/
def isWaybackFlagCh (c : Char) : Bool :=
  ('a' ≤ c && c ≤ 'z') || ('A' ≤ c && c ≤ 'Z') || c == '_'

/-- The regex of _extract_original_from_wayback applied to a url path
(source line 225).  The dollar anchor of the pattern also matches just
before one final newline, and the dot of the capture does not match a
newline, which the core/tail handling below reproduces. -/
def parseWaybackPath (p : List Char) : Option (List Char) :=
  if startsL (cs "/web/") p then
    let r1 := p.drop 5
    let ds := r1.takeWhile isDigitCh
    if ds.isEmpty then none
    else
      let r2 := r1.drop ds.length
      let fs := r2.takeWhile isWaybackFlagCh
      let r3 := r2.drop fs.length
      match r3 with
      | '/' :: rest =>
        let core := if rest.getLast? == some '\n' then rest.dropLast else rest
        if startsCI (cs "https://") core then
          if !(core.drop 8).isEmpty && !hasChar '\n' (core.drop 8) then some core else none
        else if startsCI (cs "http://") core then
          if !(core.drop 7).isEmpty && !hasChar '\n' (core.drop 7) then some core else none
        else none
      | _ => none
  else none

/-- _extract_original_from_wayback (source lines 216-228). -/
def extractOriginalFromWayback (url : List Char) : Option (List Char) :=
  let u := urlsplitE url
  if waybackHosts.contains (lowerL u.netloc) then parseWaybackPath u.path else none

/-- The in-scope absolute rebuild of _rewrite_one_url_value
(source lines 255-263). -/
def absRebuild (u : UrlSplitResult) (rp : List Char) : List Char :=
  let path0 := if u.path.isEmpty then cs "/" else u.path
  let path1 := if startsL (cs "/") path0 then path0.drop 1 else path0
  let r1 := rp ++ path1
  let r2 := if u.query.isEmpty then r1 else r1 ++ '?' :: u.query
  if u.fragment.isEmpty then r2 else r2 ++ '#' :: u.fragment

/-- Paths treated as root-relative without a leading slash
(source lines 271-276). -/
def maybeRootDirs : List (List Char) :=
  [cs "wp-content/", cs "wp-includes/", cs "wp-json/", cs "cdn-cgi/"]

/-- The absolute, root-relative and known-root-relative stages of
_rewrite_one_url_value (source lines 247-280).  The first argument is the
value after unwrapping and protocol-relative upgrade, the second the
original attribute value returned in the untouched cases.  The try/except
around urlsplit cannot fire in this embedding because urlsplitE is
total. -/
def rewriteResolved (v2 value : List Char) (domainSet : List (List Char))
    (rp : List Char) : List Char :=
  if startsL (cs "http://") v2 || startsL (cs "https://") v2 then
    let u := urlsplitE v2
    if domainSet.contains (lowerL u.netloc) then absRebuild u rp else value
  else if startsL (cs "/") v2 then rp ++ lstripAll '/' v2
  else if (maybeRootDirs.find? (fun p => startsL p v2)).isSome then rp ++ v2
  else value

/-- The protocol-relative upgrade of _rewrite_one_url_value
(source lines 244-245) feeding the later stages. -/
def rewriteUnwrapped (v1 value : List Char) (domainSet : List (List Char))
    (rp : List Char) : List Char :=
  rewriteResolved (if startsL (cs "//") v1 then cs "https:" ++ v1 else v1) value domainSet rp

/-- _rewrite_one_url_value (source lines 231-280): strip, pass-through
guards, wayback unwrapping, then the rewrite stages of rewriteUnwrapped. -/
def rewriteOneUrlValue (value : List Char) (domainSet : List (List Char))
    (rp : List Char) : List Char :=
  let v := pyStrip value
  if v.isEmpty || startsL (cs "#") v then value
  else if matchesSkipScheme v then value
  else
    rewriteUnwrapped
      (match extractOriginalFromWayback v with
        | some embedded => embedded
        | none => v) value domainSet rp

example : rewriteOneUrlValue (cs "https://example.org/a/b.html")
    [cs "example.org", cs "www.example.org"] (cs "../") = cs "../a/b.html" := by decide

example : rewriteOneUrlValue (cs "https://other.org/a") [cs "example.org"] (cs "../")
    = cs "https://other.org/a" := by decide

example : rewriteOneUrlValue (cs "https://web.archive.org/web/20200101000000/https://example.org/a")
    [cs "example.org", cs "www.example.org"] (cs "") = cs "a" := by decide

example : rewriteOneUrlValue (cs "//example.org/x.png") [cs "example.org"] (cs "../../")
    = cs "../../x.png" := by decide

example : rewriteOneUrlValue (cs "wp-content/a.css") [cs "example.org"] (cs "../")
    = cs "../wp-content/a.css" := by decide

example : rewriteOneUrlValue (cs "https://example.org/http://foo") [cs "example.org"] (cs "")
    = cs "http://foo" := by decide

/-!
Embedding of the Path Mapper (_local_path_for_original, _ext_for_mime,
source lines 361-415) and of the selection / conflict-resolution pass of
main (source lines 452-481).
-/

/-- Continuation byte test for UTF-8 decoding. -/
def utf8Cont (b : Nat) : Bool := 0x80 ≤ b && b ≤ 0xBF

/-- bytes.decode of a UTF-8 byte list with errors equal to replace: each
maximal invalid subpart becomes one replacement character, matching
CPython's decoder.  The fuel (first argument) only needs to be at least
the byte-list length since every step consumes at least one byte. -/
def utf8DecodeReplaceF : Nat → List Nat → List Char
  | 0, _ => []
  | _ + 1, [] => []
  | fuel + 1, b :: rest =>
    if b < 0x80 then Char.ofNat b :: utf8DecodeReplaceF fuel rest
    else if 0xC2 ≤ b && b ≤ 0xDF then
      match rest with
      | b2 :: r2 =>
        if utf8Cont b2 then
          Char.ofNat ((b - 0xC0) * 64 + (b2 - 0x80)) :: utf8DecodeReplaceF fuel r2
        else '�' :: utf8DecodeReplaceF fuel (b2 :: r2)
      | [] => ['�']
    else if 0xE0 ≤ b && b ≤ 0xEF then
      match rest with
      | b2 :: r2 =>
        let ok2 := if b = 0xE0 then 0xA0 ≤ b2 && b2 ≤ 0xBF
          else if b = 0xED then 0x80 ≤ b2 && b2 ≤ 0x9F
          else utf8Cont b2
        if ok2 then
          match r2 with
          | b3 :: r3 =>
            if utf8Cont b3 then
              Char.ofNat ((b - 0xE0) * 4096 + (b2 - 0x80) * 64 + (b3 - 0x80)) ::
                utf8DecodeReplaceF fuel r3
            else '�' :: utf8DecodeReplaceF fuel (b3 :: r3)
          | [] => ['�']
        else '�' :: utf8DecodeReplaceF fuel (b2 :: r2)
      | [] => ['�']
    else if 0xF0 ≤ b && b ≤ 0xF4 then
      match rest with
      | b2 :: r2 =>
        let ok2 := if b = 0xF0 then 0x90 ≤ b2 && b2 ≤ 0xBF
          else if b = 0xF4 then 0x80 ≤ b2 && b2 ≤ 0x8F
          else utf8Cont b2
        if ok2 then
          match r2 with
          | b3 :: r3 =>
            if utf8Cont b3 then
              match r3 with
              | b4 :: r4 =>
                if utf8Cont b4 then
                  Char.ofNat ((b - 0xF0) * 262144 + (b2 - 0x80) * 4096 +
                    (b3 - 0x80) * 64 + (b4 - 0x80)) :: utf8DecodeReplaceF fuel r4
                else '�' :: utf8DecodeReplaceF fuel (b4 :: r4)
              | [] => ['�']
            else '�' :: utf8DecodeReplaceF fuel (b3 :: r3)
          | [] => ['�']
        else '�' :: utf8DecodeReplaceF fuel (b2 :: r2)
      | [] => ['�']
    else '�' :: utf8DecodeReplaceF fuel rest

/-- bytes.decode with UTF-8 and errors equal to replace. -/
def utf8DecodeReplace (l : List Nat) : List Char := utf8DecodeReplaceF l.length l

/-- Hexadecimal digit value. -/
def hexVal (c : Char) : Option Nat :=
  if '0' ≤ c && c ≤ '9' then some (c.toNat - 48)
  else if 'a' ≤ c && c ≤ 'f' then some (c.toNat - 87)
  else if 'A' ≤ c && c ≤ 'F' then some (c.toNat - 55)
  else none

/-- urllib.parse.unquote with UTF-8 and errors equal to replace: runs of
consecutive valid percent-escapes are accumulated (third argument) and
decoded together; a percent sign not followed by two hex digits stays
literal.  The fuel only needs to be at least the character-list length. -/
def unquoteGoF : Nat → List Char → List Nat → List Char
  | 0, _, acc => utf8DecodeReplace acc
  | _ + 1, [], acc => utf8DecodeReplace acc
  | fuel + 1, '%' :: rest, acc =>
    match rest with
    | h1 :: h2 :: r2 =>
      match hexVal h1, hexVal h2 with
      | some a, some b => unquoteGoF fuel r2 (acc ++ [a * 16 + b])
      | _, _ => utf8DecodeReplace acc ++ '%' :: unquoteGoF fuel (h1 :: h2 :: r2) []
    | _ => utf8DecodeReplace acc ++ '%' :: unquoteGoF fuel rest []
  | fuel + 1, c :: rest, acc => utf8DecodeReplace acc ++ c :: unquoteGoF fuel rest []

/-- urllib.parse.unquote. -/
def unquoteL (l : List Char) : List Char := unquoteGoF l.length l []

/-- Helper for the slash-collapsing substitution: the first argument is the
previously emitted character. -/
def collapseGo : Option Char → List Char → List Char
  | _, [] => []
  | prev, c :: rest =>
    if c == '/' && prev == some '/' then collapseGo prev rest
    else c :: collapseGo (some c) rest

/-- re.sub of two or more consecutive slashes by one slash (source line 368). -/
def collapseSlashes (l : List Char) : List Char := collapseGo none l

/-- Character class of the trailing-extension regex (source line 371),
[a-z0-9] under re.IGNORECASE. -/
def isExtAlnumCh (c : Char) : Bool := isAsciiAlphaCh c || isDigitCh c

/-- re.search of a dot followed by one to eight alphanumerics at the end of
the path (source line 371). -/
def hasExtEnd (p : List Char) : Bool :=
  let r := p.reverse
  let ds := r.takeWhile isExtAlnumCh
  !ds.isEmpty && decide (ds.length ≤ 8) && ((r.drop ds.length).head? == some '.')

/-- _norm_mime (source lines 88-89). -/
def normMime (m : List Char) : List Char :=
  lowerL (pyStrip (m.takeWhile (fun c => !(c == ';'))))

/-- The path component used by _local_path_for_original, with empty paths
replaced by a slash. -/
def pathOrRoot (p : List Char) : List Char := if p.isEmpty then cs "/" else p

/-- Leading-slash normalisation of _local_path_for_original (lines 365-366). -/
def ensureLeadSlash (p : List Char) : List Char := if startsL (cs "/") p then p else '/' :: p

/-- The decoded, slash-normalised path of _local_path_for_original
(source lines 363-368). -/
def localRawPath (originalUrl : List Char) : List Char :=
  collapseSlashes (ensureLeadSlash (unquoteL (pathOrRoot (urlsplitE originalUrl).path)))

/-- _local_path_for_original (source lines 361-394). -/
def localPathForOriginal (originalUrl mimetype : List Char) : List Char :=
  let path := localRawPath originalUrl
  let mime := normMime mimetype
  if mime == cs "text/html" && (endsL (cs "/") path || !hasExtEnd path) then
    let path2 := if endsL (cs "/") path then path else path ++ cs "/"
    lstripAll '/' path2 ++ cs "index.html"
  else if endsL (cs "/") path then
    let ext :=
      if startsL (cs "image/") mime then '.' :: mime.drop 6
      else if mime == cs "text/css" then cs ".css"
      else if endsL (cs "javascript") mime then cs ".js"
      else if hasSub (cs "json") mime then cs ".json"
      else if endsL (cs "xml") mime then cs ".xml"
      else cs ".bin"
    lstripAll '/' path ++ cs "index" ++ ext
  else lstripAll '/' path

/-- _ext_for_mime (source lines 397-415). -/
def extForMime (mimetype : List Char) : List Char :=
  let m := normMime mimetype
  if m.isEmpty then cs ".bin"
  else if m == cs "text/plain" then cs ".txt"
  else if m == cs "text/css" then cs ".css"
  else if endsL (cs "javascript") m || m == cs "application/javascript" ||
      m == cs "text/javascript" || m == cs "application/x-javascript" then cs ".js"
  else if hasSub (cs "json") m then cs ".json"
  else if endsL (cs "xml") m || hasSub (cs "xml") m then cs ".xml"
  else if startsL (cs "image/") m then '.' :: m.drop 6
  else if startsL (cs "font/") m then '.' :: m.drop 5
  else cs ".bin"

/-- One CDX index record (the dataclass CdxRecord, source lines 158-163). -/
structure CdxRec where
  timestamp : List Char
  original : List Char
  mimetype : List Char
  statuscode : List Char
deriving DecidableEq, Repr

/-- The dedup-by-local-path loop of main (source lines 452-459); the set of
already seen paths is the second argument. -/
def chooseGo : List CdxRec → List (List Char) → List (CdxRec × List Char)
  | [], _ => []
  | r :: rest, seen =>
    let lp := localPathForOriginal r.original r.mimetype
    if seen.contains lp then chooseGo rest seen
    else (r, lp) :: chooseGo rest (lp :: seen)

/-- The deduplicated Selection Set: one record per local path, in index
order (source lines 452-459). -/
def chooseRecords (records : List CdxRec) : List (CdxRec × List Char) := chooseGo records []

/-- The set of directory-prefix strings of the chosen paths
(source lines 463-467); a list used only through membership. -/
def dirPrefixesOf (chosen : List (CdxRec × List Char)) : List (List Char) :=
  chosen.flatMap (fun rl =>
    let parts := splitOnChar '/' rl.2
    (List.range parts.length).filterMap (fun j =>
      if j = 0 then none else some (joinSep (cs "/") (parts.take j))))

/-- The conflict-resolution loop of main (source lines 470-480).  The
hash8 argument stands for the first eight characters of the SHA-1 hex
digest of the record's original URL (source line 476); it is a parameter
because no claim depends on concrete digest values.  The boolean result
records whether the hash fallback branch was ever taken. -/
def fixChosenGo (hash8 : List Char → List Char) (dps : List (List Char)) :
    List (CdxRec × List Char) → List (List Char) → Bool → List (CdxRec × List Char) × Bool
  | [], _, fb => ([], fb)
  | (r, lp) :: rest, taken, fb =>
    if dps.contains lp then
      if taken.contains (lp ++ extForMime r.mimetype) then
        let nl := lp ++ cs "__" ++ hash8 r.original ++ extForMime r.mimetype
        let out := fixChosenGo hash8 dps rest (nl :: taken.erase lp) true
        ((r, nl) :: out.1, out.2)
      else
        let nl := lp ++ extForMime r.mimetype
        let out := fixChosenGo hash8 dps rest (nl :: taken.erase lp) fb
        ((r, nl) :: out.1, out.2)
    else
      let out := fixChosenGo hash8 dps rest taken fb
      ((r, lp) :: out.1, out.2)

/-- The conflict-resolution pass of main (source lines 461-481): initial
taken set is the set of chosen paths. -/
def fixChosen (hash8 : List Char → List Char) (chosen : List (CdxRec × List Char)) :
    List (CdxRec × List Char) × Bool :=
  let dps := dirPrefixesOf chosen
  if dps.isEmpty then (chosen, false)
  else fixChosenGo hash8 dps chosen (chosen.map (fun rl => rl.2)) false

/-- _posix_relpath (source lines 209-213) for directories given as
slash-split segment lists below a common filesystem root: the length of the
common segment stem. -/
def commonStemLen : List (List Char) → List (List Char) → Nat
  | a :: as2, b :: bs => if a == b then commonStemLen as2 bs + 1 else 0
  | _, _ => 0

/-- _posix_relpath (source lines 209-213): the relative path from the first
directory to the second, with a trailing slash unless the directories are
equal (os.path.relpath's dot result maps to the empty string). -/
def posixRelSegs (fromDir toDir : List (List Char)) : List Char :=
  let k := commonStemLen fromDir toDir
  let rel := List.replicate (fromDir.length - k) (cs "..") ++ toDir.drop k
  if rel.isEmpty then [] else joinSep (cs "/") rel ++ cs "/"

/-- Modelled from the spec: the Testable Properties section says the
rewritten value, when resolved against the rewriting page's directory,
points to a local path; this is one step of POSIX dot-dot resolution used
to state that property. -/
def normSegsStep (acc : List (List Char)) (seg : List Char) : List (List Char) :=
  if seg == cs ".." then acc.dropLast
  else if seg == cs "." || seg.isEmpty then acc
  else acc ++ [seg]

/-- Modelled from the spec: resolving a relative reference against the page
directory (given as segments below the site root), expressed as a path
relative to the site root. -/
def resolveAgainstDir (dirSegs : List (List Char)) (rel : List Char) : List Char :=
  joinSep (cs "/") ((dirSegs ++ splitOnChar '/' rel).foldl normSegsStep [])

example : localPathForOriginal (cs "https://example.org/about/") (cs "text/html")
    = cs "about/index.html" := by decide

example : localPathForOriginal (cs "https://example.org/img/logo.png") (cs "image/png")
    = cs "img/logo.png" := by decide

example : localPathForOriginal (cs "https://example.org/docs") (cs "text/html")
    = cs "docs/index.html" := by decide

example : localPathForOriginal (cs "https://example.org/a") (cs "application/octet-stream")
    = cs "a" := by decide

example :
    (fixChosen (fun _ => cs "00000000") (chooseRecords
      [⟨cs "1", cs "https://example.org/a", cs "application/octet-stream", cs "200"⟩,
       ⟨cs "1", cs "https://example.org/a/x", cs "image/png", cs "200"⟩,
       ⟨cs "1", cs "https://example.org/a.bin/y", cs "image/png", cs "200"⟩])).1.map
        (fun rl => rl.2) = [cs "a.bin", cs "a/x", cs "a.bin/y"] := by decide

example : posixRelSegs [cs "x"] [] = cs "../" := by decide

example : resolveAgainstDir [cs "x"] (cs "../a/b.html") = cs "a/b.html" := by decide

/-!
Embedding of the Markup Rewriter (rewrite_html and
rewrite_css_urls_in_text, source lines 283-358).  Each regex substitution
is embedded as a scanner that finds the leftmost match, replaces it, and
continues after the replacement, exactly as re.sub does.  The
substitution loops carry a fuel argument; since every match consumes at
least one character, a fuel of the text length plus one is always enough.
-/

/-- Consume a literal, case-insensitively (re.IGNORECASE literal text). -/
def dropLitCI (pat l : List Char) : Option (List Char) :=
  match pat with
  | [] => some l
  | p :: ps =>
    match l with
    | [] => none
    | c :: rest => if lowerChar c == lowerChar p then dropLitCI ps rest else none

/-- Quote characters of the character class with double and single quote. -/
def isQuoteCh (c : Char) : Bool := c == '"' || c == '\x27'

/-- The character class of the url( argument: anything except quotes and a
closing parenthesis. -/
def isUrlArgCh (c : Char) : Bool := !(c == '"' || c == '\x27' || c == ')')

/-- Split at the first occurrence of a character, none when absent. -/
def splitAtCharQ (q : Char) (l : List Char) : Option (List Char × List Char) :=
  let before := l.takeWhile (fun x => !(x == q))
  if before.length = l.length then none else some (before, l.drop (before.length + 1))

/-- Match of the url( regex of rewrite_css_urls_in_text (source line 338)
at the head of the list: optional quote, a nonempty run of argument
characters, the same quote, optional whitespace, closing parenthesis.
Returns (quote characters, argument, rest after the closing parenthesis). -/
def urlParenMatchAt (l : List Char) : Option (List Char × List Char × List Char) :=
  match dropLitCI (cs "url(") l with
  | none => none
  | some r1 =>
    let r2 := r1.dropWhile isPySpace
    match r2 with
    | [] => none
    | q :: r3 =>
      if isQuoteCh q then
        let u := r3.takeWhile isUrlArgCh
        if u.isEmpty then none
        else
          match r3.drop u.length with
          | q2 :: r5 =>
            if q2 == q then
              match r5.dropWhile isPySpace with
              | ')' :: r7 => some ([q], u, r7)
              | _ => none
            else none
          | [] => none
      else
        let u := r2.takeWhile isUrlArgCh
        if u.isEmpty then none
        else
          match r2.drop u.length with
          | ')' :: r7 => some ([], u, r7)
          | _ => none

/-- Leftmost url( match: (text before the match, quote, argument, rest). -/
def findUrlParen : List Char → Option (List Char × List Char × List Char × List Char)
  | [] => none
  | c :: rest =>
    match urlParenMatchAt (c :: rest) with
    | some (q, u, r) => some ([], q, u, r)
    | none =>
      match findUrlParen rest with
      | some (pre, q, u, r) => some (c :: pre, q, u, r)
      | none => none

/-- The url( substitution loop of rewrite_css_urls_in_text
(source lines 338-346). -/
def subUrlParenF (scope : List (List Char)) (rp : List Char) :
    Nat → List Char → List Char
  | 0, l => l
  | fuel + 1, l =>
    match findUrlParen l with
    | none => l
    | some (pre, q, u, r) =>
      pre ++ cs "url(" ++ q ++ rewriteOneUrlValue u scope rp ++ q ++ cs ")" ++
        subUrlParenF scope rp fuel r

/-- The trailing part of the at-import regex after the closing quote:
optional whitespace, optional closing parenthesis, optional whitespace,
semicolon. -/
def importClose (l : List Char) : Option (List Char) :=
  let a1 := l.dropWhile isPySpace
  let a2 := match a1 with
    | ')' :: t => t.dropWhile isPySpace
    | _ => a1
  match a2 with
  | ';' :: r => some r
  | _ => none

/-- The lazy group of the at-import regex: the shortest prefix up to an
occurrence of the quote whose continuation closes the statement; on
failure the lazy group extends to the next quote occurrence. -/
def importTailF (q : Char) : Nat → List Char → Option (List Char × List Char)
  | 0, _ => none
  | fuel + 1, l =>
    match splitAtCharQ q l with
    | none => none
    | some (seg, after) =>
      match importClose after with
      | some rest => some (seg, rest)
      | none =>
        match importTailF q fuel after with
        | some (u2, rest) => some (seg ++ q :: u2, rest)
        | none => none

/-- Match of the at-import regex of rewrite_css_urls_in_text
(source line 349) at the head of the list. -/
def importMatchAt (l : List Char) : Option (Char × List Char × List Char) :=
  match dropLitCI (cs "@import") l with
  | none => none
  | some r1 =>
    let ws := r1.takeWhile isPySpace
    if ws.isEmpty then none
    else
      let r2 := r1.drop ws.length
      let r3 := match dropLitCI (cs "url(") r2 with
        | some r2b => r2b.dropWhile isPySpace
        | none => r2
      match r3 with
      | [] => none
      | q :: r4 =>
        if isQuoteCh q then
          match importTailF q (r4.length + 1) r4 with
          | some (u, rest) => some (q, u, rest)
          | none => none
        else none

/-- Leftmost at-import match. -/
def findImport : List Char → Option (List Char × Char × List Char × List Char)
  | [] => none
  | c :: rest =>
    match importMatchAt (c :: rest) with
    | some (q, u, r) => some ([], q, u, r)
    | none =>
      match findImport rest with
      | some (pre, q, u, r) => some (c :: pre, q, u, r)
      | none => none

/-- The at-import substitution loop of rewrite_css_urls_in_text
(source lines 349-357). -/
def subImportF (scope : List (List Char)) (rp : List Char) :
    Nat → List Char → List Char
  | 0, l => l
  | fuel + 1, l =>
    match findImport l with
    | none => l
    | some (pre, q, u, r) =>
      pre ++ cs "@import " ++ [q] ++ rewriteOneUrlValue u scope rp ++ [q] ++ cs ";" ++
        subImportF scope rp fuel r

/-- rewrite_css_urls_in_text (source lines 334-358). -/
def rewriteCssUrlsInText (cssText : List Char) (pageDir siteRoot : List (List Char))
    (scope : List (List Char)) : List Char :=
  let rp := posixRelSegs pageDir siteRoot
  let t1 := subUrlParenF scope rp (cssText.length + 1) cssText
  subImportF scope rp (t1.length + 1) t1

/-- Word character for the regex word boundary (ASCII part of the str
pattern class). -/
def isWordCh (c : Char) : Bool := isAsciiAlphaCh c || isDigitCh c || c == '_'

/-- A word boundary holds before a word character when the previous
character (none at the text start) is not a word character. -/
def boundaryOK : Option Char → Bool
  | none => true
  | some p => !isWordCh p

/-- The common part of the srcset and attribute regexes: optional
whitespace, equals sign, optional whitespace, quote, lazy value up to the
first same quote.  Returns (quote, value, rest). -/
def quotedAfterEq (l : List Char) : Option (Char × List Char × List Char) :=
  match l.dropWhile isPySpace with
  | '=' :: r3 =>
    match r3.dropWhile isPySpace with
    | q :: r5 =>
      if isQuoteCh q then
        match splitAtCharQ q r5 with
        | some (v, rest) => some (q, v, rest)
        | none => none
      else none
    | [] => none
  | _ => none

/-- Match of the srcset regex (source line 305) at the head of the list. -/
def srcsetMatchAt (l : List Char) : Option (Char × List Char × List Char) :=
  match dropLitCI (cs "srcset") l with
  | none => none
  | some r1 => quotedAfterEq r1

/-- Leftmost srcset match; the first argument is the character before the
current position, for the word boundary. -/
def findSrcset : Option Char → List Char → Option (List Char × Char × List Char × List Char)
  | _, [] => none
  | prev, c :: rest =>
    match (if boundaryOK prev then srcsetMatchAt (c :: rest) else none) with
    | some (q, v, r) => some ([], q, v, r)
    | none =>
      match findSrcset (some c) rest with
      | some (pre, q, v, r) => some (c :: pre, q, v, r)
      | none => none

/-- The per-candidate body of the loop of repl_srcset (source lines
292-303): skip an empty candidate, split it on whitespace, rewrite the
first token and reattach the space-joined remaining descriptor tokens. -/
def srcsetPart (scope : List (List Char)) (rp : List Char) (p : List Char) :
    Option (List Char) :=
  if p.isEmpty then none
  else
    match pySplitWs p with
    | [] => none
    | url :: restToks =>
      let rest := joinSep (cs " ") restToks
      let newUrl := rewriteOneUrlValue url scope rp
      some (pyStrip (newUrl ++ if rest.isEmpty then [] else ' ' :: rest))

/-- The body of repl_srcset (source lines 287-303): split the raw value on
commas, strip each candidate, rewrite each candidate, and rejoin with
normalised separators. -/
def srcsetRewriteValue (scope : List (List Char)) (rp : List Char)
    (raw : List Char) : List Char :=
  let parts := (splitOnChar ',' raw).map pyStrip
  joinSep (cs ", ") (parts.filterMap (srcsetPart scope rp))

/-- The srcset substitution loop of rewrite_html (source lines 287-305). -/
def subSrcsetF (scope : List (List Char)) (rp : List Char) :
    Nat → Option Char → List Char → List Char
  | 0, _, l => l
  | fuel + 1, prev, l =>
    match findSrcset prev l with
    | none => l
    | some (pre, q, raw, rest) =>
      pre ++ cs "srcset=" ++ [q] ++ srcsetRewriteValue scope rp raw ++ [q] ++
        subSrcsetF scope rp fuel (some q) rest

/-- The URL-bearing attribute names of rewrite_html (source lines 308-317),
in the order of the regex alternation. -/
def attrNames : List (List Char) :=
  [cs "href", cs "src", cs "poster", cs "action", cs "data-src", cs "data-href",
   cs "data-url", cs "content"]

/-- Match of the attribute regex (source line 318) at the head of the
list: the first alternative that matches, with its original-case matched
name.  Returns (name as matched, quote, value, rest). -/
def attrMatchAt (l : List Char) : Option (List Char × Char × List Char × List Char) :=
  attrNames.findSome? (fun nm =>
    match dropLitCI nm l with
    | none => none
    | some r1 =>
      match quotedAfterEq r1 with
      | some (q, v, rest) => some (l.take nm.length, q, v, rest)
      | none => none)

/-- Leftmost attribute match, with the word boundary carried as the
previous character. -/
def findAttr : Option Char → List Char →
    Option (List Char × List Char × Char × List Char × List Char)
  | _, [] => none
  | prev, c :: rest =>
    match (if boundaryOK prev then attrMatchAt (c :: rest) else none) with
    | some (nm, q, v, r) => some ([], nm, q, v, r)
    | none =>
      match findAttr (some c) rest with
      | some (pre, nm, q, v, r) => some (c :: pre, nm, q, v, r)
      | none => none

/-- The attribute substitution loop of rewrite_html (source lines 318-327). -/
def subAttrF (scope : List (List Char)) (rp : List Char) :
    Nat → Option Char → List Char → List Char
  | 0, _, l => l
  | fuel + 1, prev, l =>
    match findAttr prev l with
    | none => l
    | some (pre, nm, q, v, rest) =>
      pre ++ nm ++ cs "=" ++ [q] ++ rewriteOneUrlValue v scope rp ++ [q] ++
        subAttrF scope rp fuel (some q) rest

/-- rewrite_html (source lines 283-331): srcset pass, attribute pass, then
the CSS pass over the result. -/
def rewriteHtml (html : List Char) (pageDir siteRoot : List (List Char))
    (scope : List (List Char)) : List Char :=
  let rp := posixRelSegs pageDir siteRoot
  let h1 := subSrcsetF scope rp (html.length + 1) none html
  let h2 := subAttrF scope rp (h1.length + 1) none h1
  rewriteCssUrlsInText h2 pageDir siteRoot scope

example : rewriteCssUrlsInText (cs "background: url(https://example.org/i.png);")
    [cs "css"] [] [cs "example.org"]
    = cs "background: url(../i.png);" := by decide

example : rewriteCssUrlsInText (cs "url(https://example.org//x)") [] [] [cs "example.org"]
    = cs "url(/x)" := by decide

example : rewriteCssUrlsInText (cs "url(/x)") [] [] [cs "example.org"] = cs "url(x)" := by
  decide

example : rewriteHtml (cs "<a href=\"https://example.org/a/b.html\">t</a>") [cs "x"] []
    [cs "example.org", cs "www.example.org"]
    = cs "<a href=\"../a/b.html\">t</a>" := by decide

example : rewriteHtml
    (cs "<img srcset=\"https://example.org/i.jpg 1x, https://example.org/i2.jpg 2x\">") [] []
    [cs "example.org", cs "www.example.org"]
    = cs "<img srcset=\"i.jpg 1x, i2.jpg 2x\">" := by decide

example : rewriteCssUrlsInText (cs "@import url(\"https://example.org/a.css\");") [] []
    [cs "example.org"] = cs "@import \"a.css\";" := by decide

/-!
Embedding of the Overlay Stripper (strip_age_gate_html and the seven Age
Gate regexes, source lines 49-85).  Each regex is embedded as a matcher
that either matches at the head of the text and returns the rest after
the whole match, or fails; a generic leftmost finder and substitution
loop mirror re.sub.  Where the original greedy in-tag scan could choose a
different span than the first feasible one, match existence coincides,
and only existence or absence of matches is used in the theorems below.
-/

/-- Leftmost occurrence of a literal, case-insensitively: (text before the
occurrence, text after it). -/
def findLitCI (needle : List Char) : List Char → Option (List Char × List Char)
  | [] => if needle.isEmpty then some ([], []) else none
  | c :: rest =>
    match dropLitCI needle (c :: rest) with
    | some r => some ([], r)
    | none =>
      match findLitCI needle rest with
      | some (pre, r) => some (c :: pre, r)
      | none => none

/-- Consume non-greater-than characters up to the first quote character
(the lazy group of the style and script id patterns), consuming it. -/
def scanQuoteNoGt : List Char → Option (List Char)
  | [] => none
  | c :: rest =>
    if isQuoteCh c then some rest
    else if c == '>' then none
    else scanQuoteNoGt rest

/-- Consume non-greater-than characters and the closing greater-than of a
tag. -/
def scanGt : List Char → Option (List Char)
  | [] => none
  | c :: rest => if c == '>' then some rest else scanGt rest

/-- Scan inside a tag (stopping at a greater-than) for a word-bounded
id attribute whose quoted value starts with age-gate-(lazy to the next
quote); returns the rest after that closing quote. -/
def findIdAgeGateOpen : Option Char → List Char → Option (List Char)
  | _, [] => none
  | prev, c :: rest =>
    if c == '>' then none
    else
      match (if boundaryOK prev then dropLitCI (cs "id=") (c :: rest) else none) with
      | some r1 =>
        (match r1 with
         | q :: r2 =>
           if isQuoteCh q then
             match dropLitCI (cs "age-gate-") r2 with
             | some r3 =>
               match scanQuoteNoGt r3 with
               | some r4 => some r4
               | none => findIdAgeGateOpen (some c) rest
             | none => findIdAgeGateOpen (some c) rest
           else findIdAgeGateOpen (some c) rest
         | [] => findIdAgeGateOpen (some c) rest)
      | none => findIdAgeGateOpen (some c) rest

/-- Scan inside a tag for a word-bounded id attribute with the exact
quoted value age-gate-css; returns the rest after the closing quote. -/
def findIdAgeGateCss : Option Char → List Char → Option (List Char)
  | _, [] => none
  | prev, c :: rest =>
    if c == '>' then none
    else
      match (if boundaryOK prev then dropLitCI (cs "id=") (c :: rest) else none) with
      | some r1 =>
        (match r1 with
         | q :: r2 =>
           if isQuoteCh q then
             match dropLitCI (cs "age-gate-css") r2 with
             | some (q2 :: r3) =>
               if isQuoteCh q2 then some r3 else findIdAgeGateCss (some c) rest
             | _ => findIdAgeGateCss (some c) rest
           else findIdAgeGateCss (some c) rest
         | [] => findIdAgeGateCss (some c) rest)
      | none => findIdAgeGateCss (some c) rest

/-- Scan inside a tag for a word-bounded attribute (src= or href=) whose
double-quoted value contains the Age Gate plugin directory; returns the
rest after the closing double quote.  The value class excludes only the
double quote, so the value may span greater-than signs, as in the
original patterns. -/
def findAgAsset (attr : List Char) : Option Char → List Char → Option (List Char)
  | _, [] => none
  | prev, c :: rest =>
    if c == '>' then none
    else
      match (if boundaryOK prev then dropLitCI attr (c :: rest) else none) with
      | some ('"' :: r2) =>
        (match splitAtCharQ '"' r2 with
         | some (v, r3) =>
           if hasSub (lowerL (cs "wp-content/plugins/age-gate/")) (lowerL v) then some r3
           else findAgAsset attr (some c) rest
         | none => findAgAsset attr (some c) rest)
      | _ => findAgAsset attr (some c) rest

/-- Match of _AG_RE_TEMPLATE (source line 50) at the head of the text. -/
def agTemplateMatchAt (l : List Char) : Option (List Char) :=
  match dropLitCI (cs "<template") l with
  | none => none
  | some r1 =>
    let ws := r1.takeWhile isPySpace
    if ws.isEmpty then none
    else
      match dropLitCI (cs "id=\"tmpl-age-gate\"") (r1.drop ws.length) with
      | none => none
      | some r2 =>
        match r2.dropWhile isPySpace with
        | '>' :: r3 =>
          match findLitCI (cs "</template>") r3 with
          | none => none
          | some (_, r4) => some (r4.dropWhile isPySpace)
        | _ => none

/-- Match of _AG_RE_STYLE_ID (source lines 51-54) at the head of the text. -/
def agStyleMatchAt (l : List Char) : Option (List Char) :=
  match dropLitCI (cs "<style") l with
  | none => none
  | some r1 =>
    let bd := match r1.head? with
      | some c0 => !isWordCh c0
      | none => true
    if !bd then none
    else
      match findIdAgeGateOpen (some 'e') r1 with
      | none => none
      | some r4 =>
        match scanGt r4 with
        | none => none
        | some r5 =>
          match findLitCI (cs "</style>") r5 with
          | none => none
          | some (_, r6) => some (r6.dropWhile isPySpace)

/-- Match of _AG_RE_LINK_ID (source line 55) at the head of the text. -/
def agLinkIdMatchAt (l : List Char) : Option (List Char) :=
  match dropLitCI (cs "<link") l with
  | none => none
  | some r1 =>
    let bd := match r1.head? with
      | some c0 => !isWordCh c0
      | none => true
    if !bd then none
    else
      match findIdAgeGateCss (some 'k') r1 with
      | none => none
      | some r4 =>
        match scanGt r4 with
        | none => none
        | some r5 => some (r5.dropWhile isPySpace)

/-- Match of _AG_RE_SCRIPT_ID (source lines 56-59) at the head of the text. -/
def agScriptIdMatchAt (l : List Char) : Option (List Char) :=
  match dropLitCI (cs "<script") l with
  | none => none
  | some r1 =>
    let bd := match r1.head? with
      | some c0 => !isWordCh c0
      | none => true
    if !bd then none
    else
      match findIdAgeGateOpen (some 't') r1 with
      | none => none
      | some r4 =>
        match scanGt r4 with
        | none => none
        | some r5 =>
          match findLitCI (cs "</script>") r5 with
          | none => none
          | some (_, r6) => some (r6.dropWhile isPySpace)

/-- Match of _AG_RE_ANY_SCRIPT_ASSET (source lines 60-63) at the head of
the text. -/
def agScriptAssetMatchAt (l : List Char) : Option (List Char) :=
  match dropLitCI (cs "<script") l with
  | none => none
  | some r1 =>
    let bd := match r1.head? with
      | some c0 => !isWordCh c0
      | none => true
    if !bd then none
    else
      match findAgAsset (cs "src=") (some 't') r1 with
      | none => none
      | some r4 =>
        match scanGt r4 with
        | none => none
        | some r5 =>
          match findLitCI (cs "</script>") r5 with
          | none => none
          | some (_, r6) => some (r6.dropWhile isPySpace)

/-- Match of _AG_RE_ANY_LINK_ASSET (source lines 64-67) at the head of the
text. -/
def agLinkAssetMatchAt (l : List Char) : Option (List Char) :=
  match dropLitCI (cs "<link") l with
  | none => none
  | some r1 =>
    let bd := match r1.head? with
      | some c0 => !isWordCh c0
      | none => true
    if !bd then none
    else
      match findAgAsset (cs "href=") (some 'k') r1 with
      | none => none
      | some r4 =>
        match scanGt r4 with
        | none => none
        | some r5 => some (r5.dropWhile isPySpace)

/-- Match of _AG_RE_CUSTOM_CSS_BLOCK (source lines 68-71) at the head of
the text. -/
def agCssBlockMatchAt (l : List Char) : Option (List Char) :=
  let r0 := l.dropWhile isPySpace
  match dropLitCI (cs ".age-gate-submit-no") r0 with
  | none => none
  | some r1 =>
    match r1.dropWhile isPySpace with
    | ',' :: r2 =>
      match dropLitCI (cs ".age-gate-submit-yes") (r2.dropWhile isPySpace) with
      | none => none
      | some r3 =>
        match r3.dropWhile isPySpace with
        | c :: r4 =>
          if c == Char.ofNat 123 then
            match splitAtCharQ (Char.ofNat 125) r4 with
            | some (_, r5) => some (r5.dropWhile isPySpace)
            | none => none
          else none
        | [] => none
    | _ => none

/-- Leftmost match of a head matcher: (text before the match, rest after
it). -/
def findPat (matchAt : List Char → Option (List Char)) :
    List Char → Option (List Char × List Char)
  | [] =>
    match matchAt [] with
    | some r => some ([], r)
    | none => none
  | c :: rest =>
    match matchAt (c :: rest) with
    | some r => some ([], r)
    | none =>
      match findPat matchAt rest with
      | some (pre, r) => some (c :: pre, r)
      | none => none

/-- re.sub with a constant replacement, as a fuelled loop over leftmost
matches. -/
def subPatF (matchAt : List Char → Option (List Char)) (repl : List Char) :
    Nat → List Char → List Char
  | 0, l => l
  | fuel + 1, l =>
    match findPat matchAt l with
    | none => l
    | some (pre, r) => pre ++ repl ++ subPatF matchAt repl fuel r

/-- re.sub with a constant replacement. -/
def subPat (matchAt : List Char → Option (List Char)) (repl : List Char)
    (l : List Char) : List Char := subPatF matchAt repl (l.length + 1) l

/-- Cap of each maximal newline run at three newlines: exactly the effect
of the final re.sub of four or more newlines by three (source line 84).
The counter is the number of newlines already kept in the current run. -/
def collapseNlGo : Nat → List Char → List Char
  | _, [] => []
  | k, c :: rest =>
    if c == '\n' then
      if 3 ≤ k then collapseNlGo k rest else '\n' :: collapseNlGo (k + 1) rest
    else c :: collapseNlGo 0 rest

/-- The blank-line collapsing substitution (source line 84). -/
def collapseNl (l : List Char) : List Char := collapseNlGo 0 l

/-- strip_age_gate_html (source lines 74-85). -/
def stripAgeGateHtml (html : List Char) : List Char :=
  let o1 := subPat agTemplateMatchAt [] html
  let o2 := subPat agStyleMatchAt [] o1
  let o3 := subPat agLinkIdMatchAt [] o2
  let o4 := subPat agScriptIdMatchAt [] o3
  let o5 := subPat agScriptAssetMatchAt [] o4
  let o6 := subPat agLinkAssetMatchAt [] o5
  let o7 := subPat agCssBlockMatchAt (cs "\n") o6
  collapseNl o7

example : stripAgeGateHtml (cs "a\n\n\n\nb") = cs "a\n\n\nb" := by decide

example : stripAgeGateHtml (cs "a\n\n\nb") = cs "a\n\n\nb" := by decide

example : stripAgeGateHtml (cs "x<template id=\"tmpl-age-gate\">zz</template>y") = cs "xy" := by
  decide

example :
    stripAgeGateHtml (cs "p<script id=\"age-gate-js-extra\">var x=1;</script>q") = cs "pq" := by
  decide

/-- A parsed srcset candidate, as a specification device for claim C7:
optional leading whitespace, a URL token, mandatory whitespace, a
single-token descriptor, optional trailing whitespace. -/
structure SrcsetCand where
  ws1 : List Char
  url : List Char
  sp : List Char
  desc : List Char
  ws2 : List Char
deriving DecidableEq, Repr

/-- The literal text of a srcset candidate. -/
def candText (c : SrcsetCand) : List Char :=
  c.ws1 ++ c.url ++ c.sp ++ c.desc ++ c.ws2

/-- Well-formedness of a srcset candidate: the padding is whitespace, the
separator is nonempty whitespace, and the URL and descriptor tokens are
nonempty and free of whitespace and commas. -/
abbrev candOK (c : SrcsetCand) : Prop :=
  (∀ a ∈ c.ws1, isPySpace a = true) ∧ (∀ a ∈ c.sp, isPySpace a = true) ∧
    (∀ a ∈ c.ws2, isPySpace a = true) ∧ c.sp ≠ [] ∧ c.url ≠ [] ∧ c.desc ≠ [] ∧
    (∀ a ∈ c.url, isPySpace a = false ∧ a ≠ ',') ∧
    (∀ a ∈ c.desc, isPySpace a = false ∧ a ≠ ',')

/-- No run of four consecutive newlines, as a scanner carrying the number
of newlines seen in the current run. -/
def noNl4Go : Nat → List Char → Bool
  | _, [] => true
  | k, c :: rest =>
    if c == '\n' then
      if 3 ≤ k then false else noNl4Go (k + 1) rest
    else noNl4Go 0 rest

/-- No run of four consecutive newlines, i.e. no run of three or more
blank lines. -/
def noNl4 (l : List Char) : Bool := noNl4Go 0 l

/-- None of the seven age-gate signatures occurs anywhere in the text. -/
abbrev noAgSignature (t : List Char) : Prop :=
  findPat agTemplateMatchAt t = none ∧ findPat agStyleMatchAt t = none ∧
    findPat agLinkIdMatchAt t = none ∧ findPat agScriptIdMatchAt t = none ∧
    findPat agScriptAssetMatchAt t = none ∧ findPat agLinkAssetMatchAt t = none ∧
    findPat agCssBlockMatchAt t = none

/-!
Shared helper lemmas.
-/

theorem startsL_ex {p l : List Char} (h : startsL p l = true) : ∃ t, l = p ++ t := by
  obtain ⟨t, ht⟩ := List.isPrefixOf_iff_prefix.mp h
  exact ⟨t, ht.symm⟩

theorem startsL_append (p t : List Char) : startsL p (p ++ t) = true := by
  induction p with
  | nil => simp [startsL]
  | cons a as ih =>
    simp only [startsL, List.cons_append, List.isPrefixOf, beq_self_eq_true, Bool.true_and]
    exact ih

theorem commonStemLen_self (d : List (List Char)) : commonStemLen d d = d.length := by
  induction d with
  | nil => rfl
  | cons a t ih => simp [commonStemLen, ih]

theorem posixRelSegs_self (d : List (List Char)) : posixRelSegs d d = [] := by
  simp [posixRelSegs, commonStemLen_self, Nat.sub_self, List.drop_length]

/-!
Claim C4.
-/

/-- Claim C4: for every URL whose content-type normalises to text/html and
whose decoded path ends in a slash or has no trailing file extension,
_local_path_for_original returns that path with a trailing slash ensured,
the leading slash stripped, followed by index.html; in particular the
about/ and img/logo.png examples of the spec. -/
theorem claim4_pretty_url_rule :
    (∀ url m, normMime m = cs "text/html" →
      endsL (cs "/") (localRawPath url) = true ∨ hasExtEnd (localRawPath url) = false →
      localPathForOriginal url m =
        lstripAll '/' (if endsL (cs "/") (localRawPath url) then localRawPath url
          else localRawPath url ++ cs "/") ++ cs "index.html") ∧
    localPathForOriginal (cs "https://example.org/about/") (cs "text/html")
      = cs "about/index.html" ∧
    localPathForOriginal (cs "https://example.org/img/logo.png") (cs "image/png")
      = cs "img/logo.png" := by
  refine ⟨?_, by decide, by decide⟩
  intro url m h1 h2
  unfold localPathForOriginal
  rw [h1]
  rcases h2 with h | h <;> simp [h]

/-- Witness for claim C4 at a concrete pretty URL. -/
theorem claim4_pretty_url_rule_witness :
    localPathForOriginal (cs "https://example.org/pretty") (cs "text/html")
      = cs "pretty/index.html" := by
  have h := claim4_pretty_url_rule.1 (cs "https://example.org/pretty") (cs "text/html")
    (by decide) (by decide)
  exact h.trans (by decide)

/-!
Claim C10.
-/

/-- The absolute-URL branch of _rewrite_one_url_value, factored for reuse:
when the stripped value is not empty, fragment-only, skip-schemed,
wayback-wrapped or protocol-relative, and starts with http:// or
https://, the result is the in-scope rebuild or the untouched original
value according to the host test. -/
theorem rewriteOne_absolute_case (value : List Char) (scope : List (List Char)) (rp : List Char)
    (hne : ((pyStrip value).isEmpty || startsL (cs "#") (pyStrip value)) = false)
    (hsk : matchesSkipScheme (pyStrip value) = false)
    (hE : extractOriginalFromWayback (pyStrip value) = none)
    (hss : startsL (cs "//") (pyStrip value) = false)
    (habs : (startsL (cs "http://") (pyStrip value) ||
      startsL (cs "https://") (pyStrip value)) = true) :
    rewriteOneUrlValue value scope rp =
      (if scope.contains (lowerL (urlsplitE (pyStrip value)).netloc) = true
       then absRebuild (urlsplitE (pyStrip value)) rp else value) := by
  unfold rewriteOneUrlValue rewriteUnwrapped rewriteResolved
  simp [hne, hsk, hE, hss, habs]

/-- Claim C10: for every absolute URL whose host is in the domain scope and
whose path component is empty or a bare slash, with no query and no
fragment, _rewrite_one_url_value returns exactly the relative prefix; and
the relative prefix of a page directory equal to the output root is the
empty string. -/
theorem claim10_bare_host_rewrite :
    (∀ (u host sch path : List Char) (scope : List (List Char)) (rp : List Char),
      pyStrip u = u →
      (startsL (cs "http://") u || startsL (cs "https://") u) = true →
      urlsplitE u = ⟨sch, host, path, [], []⟩ →
      path = [] ∨ path = cs "/" →
      scope.contains (lowerL host) = true →
      rewriteOneUrlValue u scope rp = rp) ∧
    (∀ dirs : List (List Char), posixRelSegs dirs dirs = []) := by
  refine ⟨?_, posixRelSegs_self⟩
  intro u host sch path scope rp h1 h3 h4 h5 h6
  have hp : parseWaybackPath path = none := by
    rcases h5 with rfl | rfl <;> decide
  have hE : extractOriginalFromWayback u = none := by
    unfold extractOriginalFromWayback
    rw [h4]
    show (if waybackHosts.contains (lowerL host) = true then parseWaybackPath path
      else none) = none
    split <;> simp [hp]
  have hAbs : absRebuild ⟨sch, host, path, [], []⟩ rp = rp := by
    rcases h5 with rfl | rfl
    · show rp ++ [] = rp
      exact List.append_nil rp
    · show rp ++ [] = rp
      exact List.append_nil rp
  have h3' := h3
  rw [Bool.or_eq_true] at h3'
  have key : rewriteOneUrlValue u scope rp =
      (if scope.contains (lowerL (urlsplitE u).netloc) = true
       then absRebuild (urlsplitE u) rp else u) := by
    rcases h3' with h | h
    · obtain ⟨t, rfl⟩ := startsL_ex h
      have key0 := rewriteOne_absolute_case (cs "http://" ++ t) scope rp
        (by rw [h1]; exact rfl) (by rw [h1]; exact rfl) (by rw [h1]; exact hE)
        (by rw [h1]; exact rfl) (by rw [h1]; exact h3)
      rw [h1] at key0
      exact key0
    · obtain ⟨t, rfl⟩ := startsL_ex h
      have key0 := rewriteOne_absolute_case (cs "https://" ++ t) scope rp
        (by rw [h1]; exact rfl) (by rw [h1]; exact rfl) (by rw [h1]; exact hE)
        (by rw [h1]; exact rfl) (by rw [h1]; exact h3)
      rw [h1] at key0
      exact key0
  rw [key, h4]
  simp only [h6]
  simp [hAbs]

/-- Witness for claim C10 at a bare in-scope host. -/
theorem claim10_bare_host_rewrite_witness :
    rewriteOneUrlValue (cs "https://example.org") [cs "example.org", cs "www.example.org"]
      (cs "../") = cs "../" ∧ posixRelSegs [cs "docs"] [cs "docs"] = [] :=
  ⟨claim10_bare_host_rewrite.1 (cs "https://example.org") (cs "example.org") (cs "https") []
      [cs "example.org", cs "www.example.org"] (cs "../") (by decide) (by decide) (by decide)
      (Or.inl rfl) (by decide),
    claim10_bare_host_rewrite.2 [cs "docs"]⟩

/-!
Claim C6.
-/

theorem absRebuild_eq (u : UrlSplitResult) (rp : List Char) :
    absRebuild u rp = rp ++ absRebuild u [] := by
  have e1 : startsL (cs "/") (cs "/") = true := rfl
  by_cases h1 : u.path.isEmpty <;> by_cases h4 : startsL (cs "/") u.path <;>
    by_cases h2 : u.query.isEmpty <;> by_cases h3 : u.fragment.isEmpty <;>
      simp [absRebuild, h1, h2, h3, h4, e1, List.append_assoc]

theorem rewriteResolved_cases (v2 value : List Char) (scope : List (List Char))
    (rp : List Char) :
    rewriteResolved v2 value scope rp = value ∨
      ∃ x, rewriteResolved v2 value scope rp = rp ++ x := by
  by_cases gA : (startsL (cs "http://") v2 || startsL (cs "https://") v2) = true
  · by_cases gH : scope.contains (lowerL (urlsplitE v2).netloc) = true
    · right
      refine ⟨absRebuild (urlsplitE v2) [], ?_⟩
      unfold rewriteResolved
      simp only [gA, eq_self_iff_true, if_true]
      rw [if_pos gH]
      exact absRebuild_eq _ _
    · left
      unfold rewriteResolved
      simp only [gA, eq_self_iff_true, if_true]
      rw [if_neg gH]
  · by_cases gS : startsL (cs "/") v2 = true
    · right
      exact ⟨lstripAll '/' v2, by unfold rewriteResolved; simp [gA, gS]⟩
    · by_cases gM : (maybeRootDirs.find? (fun p => startsL p v2)).isSome = true
      · right
        exact ⟨v2, by unfold rewriteResolved; simp [gA, gS, gM]⟩
      · left
        unfold rewriteResolved
        simp [gA, gS, gM]

theorem rewriteUnwrapped_cases (v1 value : List Char) (scope : List (List Char))
    (rp : List Char) :
    rewriteUnwrapped v1 value scope rp = value ∨
      ∃ x, rewriteUnwrapped v1 value scope rp = rp ++ x := by
  unfold rewriteUnwrapped
  exact rewriteResolved_cases _ value scope rp

/-- Every value either passes through _rewrite_one_url_value unchanged or
comes out as the relative prefix followed by some suffix. -/
theorem rewriteOne_value_or_prefixed (value : List Char) (scope : List (List Char))
    (rp : List Char) :
    rewriteOneUrlValue value scope rp = value ∨
      ∃ x, rewriteOneUrlValue value scope rp = rp ++ x := by
  by_cases g1 : ((pyStrip value).isEmpty || startsL (cs "#") (pyStrip value)) = true
  · left
    unfold rewriteOneUrlValue
    simp [g1]
  by_cases g2 : matchesSkipScheme (pyStrip value) = true
  · left
    unfold rewriteOneUrlValue
    simp [g1, g2]
  · have hrw : rewriteOneUrlValue value scope rp =
        rewriteUnwrapped
          (match extractOriginalFromWayback (pyStrip value) with
            | some embedded => embedded
            | none => pyStrip value) value scope rp := by
      unfold rewriteOneUrlValue
      simp [g1, g2]
    rw [hrw]
    exact rewriteUnwrapped_cases _ value scope rp

theorem pyStrip_cons_of_not_space {c : Char} (h : isPySpace c = false) (t : List Char) :
    ∃ r, pyStrip (c :: t) = c :: r := by
  unfold pyStrip pyLStrip pyRStrip
  rw [List.dropWhile_cons_of_neg (by simp [h])]
  rw [List.reverse_cons, List.dropWhile_append]
  split
  · exact ⟨[], by rw [List.dropWhile_cons_of_neg (by simp [h])]; rfl⟩
  · exact ⟨(List.dropWhile (fun x => isPySpace x) t.reverse).reverse, by simp⟩

theorem schemeSplitL_head_nonalpha {c : Char} (h : isAsciiAlphaCh c = false)
    (y : List Char) : schemeSplitL (c :: y) = none := by
  unfold schemeSplitL
  simp only []
  by_cases hc : c = ':'
  · subst hc
    rw [List.takeWhile_cons_of_neg (by simp)]
    simp
  · rw [List.takeWhile_cons_of_pos (by simp [hc])]
    split
    · simp [h]
    · rfl

theorem urlsplitE_head_dot (r : List Char) : (urlsplitE ('.' :: r)).netloc = [] := by
  have hu : dropUnsafeUrlChars ('.' :: r) = '.' :: dropUnsafeUrlChars r := by
    unfold dropUnsafeUrlChars
    rw [List.filter_cons_of_pos (by decide)]
  unfold urlsplitE
  simp only []
  rw [List.dropWhile_cons_of_neg (by decide), hu, schemeSplitL_head_nonalpha (by decide)]
  rfl

theorem extract_head_dot (r : List Char) :
    extractOriginalFromWayback ('.' :: r) = none := by
  unfold extractOriginalFromWayback
  simp only []
  rw [urlsplitE_head_dot]
  rfl

/-- A value whose strip begins with a dot is left unchanged by
_rewrite_one_url_value: no branch of the rewriter matches it. -/
theorem rewriteOne_head_dot (value : List Char) (scope : List (List Char))
    (rp : List Char) (h : ∃ r, pyStrip value = '.' :: r) :
    rewriteOneUrlValue value scope rp = value := by
  obtain ⟨r, hr⟩ := h
  have g1 : (('.' :: r).isEmpty || startsL (cs "#") ('.' :: r)) = false := rfl
  have g2 : matchesSkipScheme ('.' :: r) = false := rfl
  have g3 : startsL (cs "//") ('.' :: r) = false := rfl
  have g4 : startsL (cs "http://") ('.' :: r) = false := rfl
  have g5 : startsL (cs "https://") ('.' :: r) = false := rfl
  have g6 : startsL (cs "/") ('.' :: r) = false := rfl
  have g7 : (maybeRootDirs.find? (fun p => startsL p ('.' :: r))).isSome = false := rfl
  have hun : rewriteUnwrapped ('.' :: r) value scope rp = value := by
    unfold rewriteUnwrapped rewriteResolved
    simp [g3, g4, g5, g6, g7]
  unfold rewriteOneUrlValue
  rw [hr]
  simp [g1, g2, extract_head_dot, hun]

/-!
Claim C2 support: splitting, joining and resolution lemmas.
-/

theorem splitOnChar_ne_nil (c : Char) (l : List Char) : splitOnChar c l ≠ [] := by
  cases l with
  | nil => simp [splitOnChar]
  | cons x xs =>
    unfold splitOnChar
    split
    · simp
    · split <;> simp

theorem splitOnChar_cons (c x : Char) (xs : List Char) :
    splitOnChar c (x :: xs) =
      (if x == c then [] :: splitOnChar c xs
       else match splitOnChar c xs with
         | [] => [[x]]
         | s :: rest => (x :: s) :: rest) := rfl

theorem splitOnChar_sep_append (c : Char) {x : List Char} (h : ∀ a ∈ x, ¬ a = c)
    (y : List Char) : splitOnChar c (x ++ c :: y) = x :: splitOnChar c y := by
  induction x with
  | nil =>
    show splitOnChar c (c :: y) = [] :: splitOnChar c y
    rw [splitOnChar_cons]
    simp
  | cons a as ih =>
    have ha : (a == c) = false := beq_eq_false_iff_ne.mpr (h a (List.mem_cons_self a as))
    have ih' := ih (fun b hb => h b (List.mem_cons_of_mem a hb))
    show splitOnChar c (a :: (as ++ c :: y)) = (a :: as) :: splitOnChar c y
    rw [splitOnChar_cons]
    simp [ha, ih']

theorem joinSep_cons_head (sep x s : List Char) (rest : List (List Char)) :
    joinSep sep ((x ++ s) :: rest) = x ++ joinSep sep (s :: rest) := by
  cases rest <;> simp [joinSep, List.append_assoc]

theorem joinSep_splitOnChar (c : Char) (l : List Char) :
    joinSep [c] (splitOnChar c l) = l := by
  induction l with
  | nil => rfl
  | cons x xs ih =>
    rcases hsp : splitOnChar c xs with _ | ⟨s, rest⟩
    · exact absurd hsp (splitOnChar_ne_nil c xs)
    · rw [hsp] at ih
      by_cases hx : x = c
      · subst hx
        have h1 : splitOnChar x (x :: xs) = [] :: splitOnChar x xs := by
          rw [splitOnChar_cons]
          simp
        rw [h1, hsp]
        show [] ++ [x] ++ joinSep [x] (s :: rest) = x :: xs
        simp [ih]
      · have hb : (x == c) = false := beq_eq_false_iff_ne.mpr hx
        have h1 : splitOnChar c (x :: xs) = (x :: s) :: rest := by
          rw [splitOnChar_cons]
          simp [hb, hsp]
        rw [h1]
        have h2 : joinSep [c] ((x :: s) :: rest) = [x] ++ joinSep [c] (s :: rest) :=
          joinSep_cons_head [c] [x] s rest
        rw [h2, ih]
        rfl

/-- A good path segment for resolution purposes: not dot-dot, not dot, not
empty. -/
def goodSeg (s : List Char) : Bool :=
  !(s == cs "..") && !(s == cs ".") && !s.isEmpty

/-- Decidable hypothesis of claim C2: the relative path consists of good
segments only. -/
def goodRelSegs (p : List Char) : Bool := (splitOnChar '/' p).all goodSeg

/-- The dot-dot chain: the relative prefix of a page directory n levels
below the site root. -/
def dotdotChain : Nat → List Char
  | 0 => []
  | n + 1 => cs "../" ++ dotdotChain n

theorem commonStemLen_nil_right (d : List (List Char)) : commonStemLen d [] = 0 := by
  cases d <;> rfl

theorem joinSep_replicate_dotdot (n : Nat) :
    joinSep (cs "/") (List.replicate (n + 1) (cs "..")) ++ cs "/" = dotdotChain (n + 1) := by
  induction n with
  | zero => rfl
  | succ m ih =>
    have h1 : List.replicate (m + 2) (cs "..") = cs ".." :: List.replicate (m + 1) (cs "..") :=
      rfl
    have h2 : joinSep (cs "/") (cs ".." :: List.replicate (m + 1) (cs ".."))
        = cs ".." ++ cs "/" ++ joinSep (cs "/") (List.replicate (m + 1) (cs "..")) := by
      have : List.replicate (m + 1) (cs "..") = cs ".." :: List.replicate m (cs "..") := rfl
      rw [this]
      rfl
    rw [h1, h2]
    show cs "../" ++ (joinSep (cs "/") (List.replicate (m + 1) (cs "..")) ++ cs "/")
      = dotdotChain (m + 2)
    rw [ih]
    rfl

theorem posixRelSegs_root (dirs : List (List Char)) :
    posixRelSegs dirs [] = dotdotChain dirs.length := by
  unfold posixRelSegs
  rw [commonStemLen_nil_right]
  simp only [Nat.sub_zero, List.drop_nil, List.append_nil]
  cases dirs with
  | nil => rfl
  | cons d ds =>
    have hne : (List.replicate (d :: ds).length (cs "..")).isEmpty = false := by
      simp [List.length_cons]
    rw [if_neg (by simp [hne])]
    exact joinSep_replicate_dotdot ds.length

theorem splitOnChar_dotdotChain (n : Nat) (p : List Char) :
    splitOnChar '/' (dotdotChain n ++ p)
      = List.replicate n (cs "..") ++ splitOnChar '/' p := by
  induction n with
  | zero => rfl
  | succ m ih =>
    have h1 : dotdotChain (m + 1) ++ p = cs ".." ++ '/' :: (dotdotChain m ++ p) := by
      show (cs "../" ++ dotdotChain m) ++ p = cs ".." ++ '/' :: (dotdotChain m ++ p)
      simp [cs]
    rw [h1, splitOnChar_sep_append '/' (by decide) (dotdotChain m ++ p), ih]
    rfl

theorem foldl_norm_good (segs : List (List Char)) (acc : List (List Char))
    (h : ∀ s ∈ segs, goodSeg s = true) :
    List.foldl normSegsStep acc segs = acc ++ segs := by
  induction segs generalizing acc with
  | nil => simp
  | cons s rest ih =>
    have hs := h s (List.mem_cons_self s rest)
    have h1 : (s == cs "..") = false := by
      rcases hb : (s == cs "..") with _ | _
      · rfl
      · rw [goodSeg, hb] at hs
        simp at hs
    have h2 : (s == cs ".") = false := by
      rcases hb : (s == cs ".") with _ | _
      · rfl
      · rw [goodSeg, hb] at hs
        simp at hs
    have h3 : s.isEmpty = false := by
      rcases hb : s.isEmpty with _ | _
      · rfl
      · rw [goodSeg, hb] at hs
        simp at hs
    have hstep : normSegsStep acc s = acc ++ [s] := by
      unfold normSegsStep
      simp [h1, h2, h3]
    rw [List.foldl_cons, hstep, ih _ (fun b hb => h b (List.mem_cons_of_mem s hb))]
    simp

theorem foldl_norm_dotdots (n : Nat) :
    ∀ acc : List (List Char), acc.length = n →
      List.foldl normSegsStep acc (List.replicate n (cs "..")) = [] := by
  induction n with
  | zero =>
    intro acc hl
    rw [List.length_eq_zero.mp hl]
    rfl
  | succ m ih =>
    intro acc hl
    have h1 : List.replicate (m + 1) (cs "..") = cs ".." :: List.replicate m (cs "..") := rfl
    have hstep : normSegsStep acc (cs "..") = acc.dropLast := by
      unfold normSegsStep
      simp
    rw [h1, List.foldl_cons, hstep]
    exact ih _ (by simp [List.length_dropLast, hl])

/-- Resolving the relative prefix plus a good relative path against the
page directory yields exactly that path. -/
theorem resolve_roundtrip (dirs : List (List Char)) (p : List Char)
    (hd : ∀ d ∈ dirs, goodSeg d = true)
    (hp : goodRelSegs p = true) :
    resolveAgainstDir dirs (posixRelSegs dirs [] ++ p) = p := by
  unfold resolveAgainstDir
  rw [posixRelSegs_root, splitOnChar_dotdotChain]
  rw [show dirs ++ (List.replicate dirs.length (cs "..") ++ splitOnChar '/' p)
    = (dirs ++ List.replicate dirs.length (cs "..")) ++ splitOnChar '/' p from
    (List.append_assoc _ _ _).symm]
  rw [List.foldl_append, List.foldl_append]
  rw [foldl_norm_good dirs [] hd]
  simp only [List.nil_append]
  rw [foldl_norm_dotdots dirs.length dirs rfl]
  rw [foldl_norm_good _ [] (fun s hs => by
    have := List.all_eq_true.mp hp s hs
    exact this)]
  simp only [List.nil_append]
  exact joinSep_splitOnChar '/' p

/-!
Claim C2.
-/

/-- Claim C2 counterexample: an in-scope absolute URL whose rewrite DOES
start with http://, because the URL's own path begins with /http:// and
the page sits at the site root (empty relative prefix). -/
theorem claim2_counterexample :
    [cs "example.org", cs "www.example.org"].contains
        (lowerL (urlsplitE (cs "https://example.org/http://foo")).netloc) = true ∧
      rewriteOneUrlValue (cs "https://example.org/http://foo")
        [cs "example.org", cs "www.example.org"] (posixRelSegs [] []) = cs "http://foo" ∧
      startsL (cs "http://") (rewriteOneUrlValue (cs "https://example.org/http://foo")
        [cs "example.org", cs "www.example.org"] (posixRelSegs [] [])) = true := by
  refine ⟨by decide, by decide, by decide⟩

/-- Claim C2 as amended: for every in-scope absolute https URL that is not
whitespace-padded, skip-schemed or an archive wrapper, whose parsed path
has no query and no fragment, whose mapped local path equals the path
after the slash (no decoding, collapsing or index synthesis needed, all
segments plain), and whose path does not itself embed an http(s) URL
after the leading slash: the rewrite produces the relative prefix of the
page directory followed by that path, the result never starts with
http:// or https://, and resolving it against the page directory yields
exactly the local path that _local_path_for_original assigns. -/
theorem claim2_rewrite_resolves_to_local_path :
    ∀ (u host p mime : List Char) (dirs scope : List (List Char)),
      pyStrip u = u →
      matchesSkipScheme u = false →
      extractOriginalFromWayback u = none →
      startsL (cs "https://") u = true →
      urlsplitE u = ⟨cs "https", host, '/' :: p, [], []⟩ →
      scope.contains (lowerL host) = true →
      localPathForOriginal u mime = p →
      goodRelSegs p = true →
      dirs.all goodSeg = true →
      startsL (cs "http://") p = false →
      startsL (cs "https://") p = false →
      (rewriteOneUrlValue u scope (posixRelSegs dirs []) = posixRelSegs dirs [] ++ p ∧
        startsL (cs "http://") (rewriteOneUrlValue u scope (posixRelSegs dirs [])) = false ∧
        startsL (cs "https://") (rewriteOneUrlValue u scope (posixRelSegs dirs [])) = false ∧
        resolveAgainstDir dirs (rewriteOneUrlValue u scope (posixRelSegs dirs []))
          = localPathForOriginal u mime) := by
  intro u host p mime dirs scope h1 hsk hE habs h4 h6 hmap hp hdirs hph hps
  obtain ⟨t, hu⟩ := startsL_ex habs
  have key := rewriteOne_absolute_case u scope (posixRelSegs dirs [])
    (by rw [h1, hu]; exact rfl) (by rw [h1]; exact hsk) (by rw [h1]; exact hE)
    (by rw [h1, hu]; exact rfl)
    (by rw [h1, Bool.or_eq_true]; exact Or.inr habs)
  rw [h1, h4] at key
  simp only [h6] at key
  have hslash : startsL (cs "/") ('/' :: p) = true := startsL_append (cs "/") p
  have habsr : absRebuild ⟨cs "https", host, '/' :: p, [], []⟩ (posixRelSegs dirs [])
      = posixRelSegs dirs [] ++ p := by
    unfold absRebuild
    simp [hslash]
  rw [if_pos trivial, habsr] at key
  refine ⟨key, ?_, ?_, ?_⟩
  · rw [key, posixRelSegs_root]
    cases dirs with
    | nil => exact hph
    | cons d ds =>
      have hsh : dotdotChain (d :: ds).length ++ p
          = '.' :: ('.' :: '/' :: (dotdotChain ds.length ++ p)) := by
        show (cs "../" ++ dotdotChain ds.length) ++ p = _
        simp [cs]
      rw [hsh]
      rfl
  · rw [key, posixRelSegs_root]
    cases dirs with
    | nil => exact hps
    | cons d ds =>
      have hsh : dotdotChain (d :: ds).length ++ p
          = '.' :: ('.' :: '/' :: (dotdotChain ds.length ++ p)) := by
        show (cs "../" ++ dotdotChain ds.length) ++ p = _
        simp [cs]
      rw [hsh]
      rfl
  · rw [key, hmap]
    exact resolve_roundtrip dirs p (fun d hd => List.all_eq_true.mp hdirs d hd) hp

/-- Witness for claim C2 as amended: the spec's own example, the URL
https://example.org/a/b.html rewritten from a page one level below the
site root. -/
theorem claim2_rewrite_resolves_to_local_path_witness :
    rewriteOneUrlValue (cs "https://example.org/a/b.html")
        [cs "example.org", cs "www.example.org"] (posixRelSegs [cs "x"] [])
        = cs "../a/b.html" ∧
      resolveAgainstDir [cs "x"] (rewriteOneUrlValue (cs "https://example.org/a/b.html")
          [cs "example.org", cs "www.example.org"] (posixRelSegs [cs "x"] []))
        = localPathForOriginal (cs "https://example.org/a/b.html") (cs "text/html") := by
  have h := claim2_rewrite_resolves_to_local_path (cs "https://example.org/a/b.html")
    (cs "example.org") (cs "a/b.html") (cs "text/html") [cs "x"]
    [cs "example.org", cs "www.example.org"] (by decide) (by decide) (by decide) (by decide)
    (by decide) (by decide) (by decide) (by decide) (by decide) (by decide) (by decide)
  exact ⟨h.1.trans (by decide), h.2.2.2⟩

/-!
Claim C5 support: shape facts about wayback extraction.
-/

/-- Claim C3 counterexample, in two parts.  First, with the page directory
equal to the site root, applying the CSS rewrite twice differs from
applying it once on a text whose in-scope URL has a path starting with a
double slash — the first pass emits a root-relative value that the second
pass rewrites again.  Second, the text-level passes are not idempotent
even when the page directory lies strictly below the site root (relative
prefix ../): the claim quantifies over every domain scope, and a scope
containing the string url(.. breaks rewrite_html — the CSS pass rewrites a
url(...) token INSIDE an attribute value after the attribute pass has run,
changing the host that the next attribute pass parses out of that value
from out-of-scope url( to in-scope url(.., so the second full pass
rewrites an attribute the first pass left alone. -/
theorem claim3_counterexample :
    (rewriteCssUrlsInText (rewriteCssUrlsInText (cs "url(https://example.org//x)") [] []
        [cs "example.org", cs "www.example.org"]) [] [] [cs "example.org", cs "www.example.org"]
      ≠ rewriteCssUrlsInText (cs "url(https://example.org//x)") [] []
        [cs "example.org", cs "www.example.org"]) ∧
      posixRelSegs [cs "d"] [] = cs "../" ∧
      rewriteHtml (cs "<a href=\"https://url(/a)\">") [cs "d"] [] [cs "url(.."]
        = cs "<a href=\"https://url(../a)\">" ∧
      rewriteHtml (rewriteHtml (cs "<a href=\"https://url(/a)\">") [cs "d"] [] [cs "url(.."])
          [cs "d"] [] [cs "url(.."]
        = cs "<a href=\"../a)\">" :=
  ⟨by decide, by decide, by decide, by decide⟩

/-- Claim C3 as amended: the text-level passes are not idempotent for any
admissible page directory — the counterexample exhibits failures both at
the site root and strictly below it (the latter through a domain scope
whose entry a CSS-pass rewrite can synthesise inside an attribute value).
What does hold is value-level idempotence: the per-value rewrite applied
by both the HTML and the CSS passes is idempotent on every value and
every domain scope whenever the relative prefix begins with a
dot-dot-slash, that is whenever the page directory lies strictly below
the site root; with the empty prefix even that fails (see the first part
of the counterexample, where the failing second rewrite is the per-value
rewrite of the emitted root-relative value). -/
theorem claim3_amended_value_idem :
    ∀ (value : List Char) (scope : List (List Char)) (rp : List Char),
      startsL (cs "../") rp = true →
      rewriteOneUrlValue (rewriteOneUrlValue value scope rp) scope rp
        = rewriteOneUrlValue value scope rp := by
  intro value scope rp h
  obtain ⟨w, rfl⟩ := startsL_ex h
  rcases rewriteOne_value_or_prefixed value scope (cs "../" ++ w) with hv | ⟨x, hv⟩
  · rw [hv]
    exact hv
  · rw [hv]
    apply rewriteOne_head_dot
    have hsh : (cs "../" ++ w) ++ x = '.' :: ('.' :: '/' :: (w ++ x)) := by
      simp [cs]
    rw [hsh]
    exact @pyStrip_cons_of_not_space '.' (by decide) ('.' :: '/' :: (w ++ x))

/-- Witness for claim C3 as amended, at a concrete in-scope URL and a
one-level-deep page directory. -/
theorem claim3_amended_value_idem_witness :
    rewriteOneUrlValue (rewriteOneUrlValue (cs "https://example.org/a")
        [cs "example.org"] (cs "../")) [cs "example.org"] (cs "../")
      = rewriteOneUrlValue (cs "https://example.org/a") [cs "example.org"] (cs "../") :=
  claim3_amended_value_idem (cs "https://example.org/a") [cs "example.org"] (cs "../")
    (by decide)

theorem containsL_iff {l : List (List Char)} {a : List Char} :
    l.contains a = true ↔ a ∈ l := List.elem_iff

theorem fixGo_cons_nodps {h8 : List Char → List Char} {dps : List (List Char)}
    {r : CdxRec} {lp : List Char} {rest : List (CdxRec × List Char)}
    {taken : List (List Char)} {fb : Bool} (h : dps.contains lp = false) :
    fixChosenGo h8 dps ((r, lp) :: rest) taken fb =
      ((r, lp) :: (fixChosenGo h8 dps rest taken fb).1,
        (fixChosenGo h8 dps rest taken fb).2) := by
  have h' : lp ∉ dps := by simpa using h
  simp [fixChosenGo, h']

theorem fixGo_cons_fresh {h8 : List Char → List Char} {dps : List (List Char)}
    {r : CdxRec} {lp : List Char} {rest : List (CdxRec × List Char)}
    {taken : List (List Char)} {fb : Bool} (h1 : dps.contains lp = true)
    (h2 : taken.contains (lp ++ extForMime r.mimetype) = false) :
    fixChosenGo h8 dps ((r, lp) :: rest) taken fb =
      ((r, lp ++ extForMime r.mimetype) ::
          (fixChosenGo h8 dps rest
            ((lp ++ extForMime r.mimetype) :: taken.erase lp) fb).1,
        (fixChosenGo h8 dps rest
          ((lp ++ extForMime r.mimetype) :: taken.erase lp) fb).2) := by
  have h1' : lp ∈ dps := by simpa using h1
  have h2' : lp ++ extForMime r.mimetype ∉ taken := by simpa using h2
  simp [fixChosenGo, h1', h2']

theorem fixGo_cons_coll {h8 : List Char → List Char} {dps : List (List Char)}
    {r : CdxRec} {lp : List Char} {rest : List (CdxRec × List Char)}
    {taken : List (List Char)} {fb : Bool} (h1 : dps.contains lp = true)
    (h2 : taken.contains (lp ++ extForMime r.mimetype) = true) :
    fixChosenGo h8 dps ((r, lp) :: rest) taken fb =
      ((r, lp ++ cs "__" ++ h8 r.original ++ extForMime r.mimetype) ::
          (fixChosenGo h8 dps rest
            ((lp ++ cs "__" ++ h8 r.original ++ extForMime r.mimetype) :: taken.erase lp)
            true).1,
        (fixChosenGo h8 dps rest
          ((lp ++ cs "__" ++ h8 r.original ++ extForMime r.mimetype) :: taken.erase lp)
          true).2) := by
  have h1' : lp ∈ dps := by simpa using h1
  have h2' : lp ++ extForMime r.mimetype ∈ taken := by simpa using h2
  simp [fixChosenGo, h1', h2']

/-- Once the hash fallback has fired, the flag stays true. -/
theorem fixGo_fb_true (h8 : List Char → List Char) (dps : List (List Char)) :
    ∀ (l : List (CdxRec × List Char)) (taken : List (List Char)),
      (fixChosenGo h8 dps l taken true).2 = true := by
  intro l
  induction l with
  | nil => intro taken; rfl
  | cons a rest ih =>
    intro taken
    obtain ⟨r, lp⟩ := a
    by_cases h1 : dps.contains lp = true
    · by_cases h2 : taken.contains (lp ++ extForMime r.mimetype) = true
      · rw [fixGo_cons_coll h1 h2]
        exact ih _
      · rw [fixGo_cons_fresh h1 (by simp only [Bool.not_eq_true] at h2; exact h2)]
        exact ih _
    · rw [fixGo_cons_nodps (by simp only [Bool.not_eq_true] at h1; exact h1)]
      exact ih _

/-- A name present in the taken set and absent from the remaining input
paths never appears among the output paths of a fallback-free run. -/
theorem fixGo_keep_not_mem (h8 : List Char → List Char) (dps : List (List Char)) :
    ∀ (l : List (CdxRec × List Char)) (taken : List (List Char)) (fb : Bool)
      (keep : List Char),
      keep ∈ taken → keep ∉ l.map (fun rl => rl.2) →
      (fixChosenGo h8 dps l taken fb).2 = false →
      keep ∉ (fixChosenGo h8 dps l taken fb).1.map (fun rl => rl.2) := by
  intro l
  induction l with
  | nil =>
    intro taken fb keep _ _ _
    simp [fixChosenGo]
  | cons a rest ih =>
    intro taken fb keep hkt hkl hfb
    obtain ⟨r, lp⟩ := a
    have hklp : keep ≠ lp := by
      intro e
      exact hkl (by simp [e])
    have hkrest : keep ∉ rest.map (fun rl => rl.2) := fun hm => hkl (by simp [hm])
    by_cases h1 : dps.contains lp = true
    · by_cases h2 : taken.contains (lp ++ extForMime r.mimetype) = true
      · rw [fixGo_cons_coll h1 h2] at hfb
        simp only [] at hfb
        rw [fixGo_fb_true h8 dps rest _] at hfb
        cases hfb
      · have h2' : taken.contains (lp ++ extForMime r.mimetype) = false := by
          simp only [Bool.not_eq_true] at h2
          exact h2
        have hknl : keep ≠ lp ++ extForMime r.mimetype := by
          intro e
          rw [← e] at h2'
          exact (by simpa using h2' : keep ∉ taken) hkt
        have hkt' : keep ∈ (lp ++ extForMime r.mimetype) :: taken.erase lp :=
          List.mem_cons_of_mem _ ((List.mem_erase_of_ne hklp).mpr hkt)
        rw [fixGo_cons_fresh h1 h2'] at hfb ⊢
        intro hmem
        simp only [List.map_cons, List.mem_cons] at hmem
        rcases hmem with e | hm
        · exact hknl e
        · exact ih _ _ keep hkt' hkrest (by simpa using hfb) hm
    · have h1' : dps.contains lp = false := by
        simp only [Bool.not_eq_true] at h1
        exact h1
      rw [fixGo_cons_nodps h1'] at hfb ⊢
      intro hmem
      simp only [List.map_cons, List.mem_cons] at hmem
      rcases hmem with e | hm
      · exact hklp e
      · exact ih _ _ keep hkt hkrest (by simpa using hfb) hm

/-- A fallback-free conflict pass keeps the output paths pairwise
distinct, provided the input paths are distinct and contained in the
taken set. -/
theorem fixGo_nodup (h8 : List Char → List Char) (dps : List (List Char)) :
    ∀ (l : List (CdxRec × List Char)) (taken : List (List Char)) (fb : Bool),
      (l.map (fun rl => rl.2)).Nodup →
      (∀ x ∈ l.map (fun rl => rl.2), x ∈ taken) →
      (fixChosenGo h8 dps l taken fb).2 = false →
      ((fixChosenGo h8 dps l taken fb).1.map (fun rl => rl.2)).Nodup := by
  intro l
  induction l with
  | nil =>
    intro taken fb _ _ _
    simp [fixChosenGo]
  | cons a rest ih =>
    intro taken fb hnd hsub hfb
    obtain ⟨r, lp⟩ := a
    rw [List.map_cons, List.nodup_cons] at hnd
    obtain ⟨hlp, hnd⟩ := hnd
    have hlpt : lp ∈ taken := hsub lp (by simp)
    have hsubr : ∀ x ∈ rest.map (fun rl => rl.2), x ∈ taken := by
      intro x hx
      exact hsub x (by simp [hx])
    by_cases h1 : dps.contains lp = true
    · by_cases h2 : taken.contains (lp ++ extForMime r.mimetype) = true
      · rw [fixGo_cons_coll h1 h2] at hfb
        simp only [] at hfb
        rw [fixGo_fb_true h8 dps rest _] at hfb
        cases hfb
      · have h2' : taken.contains (lp ++ extForMime r.mimetype) = false := by
          simp only [Bool.not_eq_true] at h2
          exact h2
        have hnlrest : (lp ++ extForMime r.mimetype) ∉ rest.map (fun rl => rl.2) := by
          intro hm
          exact (by simpa using h2' : (lp ++ extForMime r.mimetype) ∉ taken) (hsubr _ hm)
        have hsubr' : ∀ x ∈ rest.map (fun rl => rl.2),
            x ∈ (lp ++ extForMime r.mimetype) :: taken.erase lp := by
          intro x hx
          have hxlp : x ≠ lp := by
            intro e
            exact hlp (e ▸ hx)
          exact List.mem_cons_of_mem _ ((List.mem_erase_of_ne hxlp).mpr (hsubr x hx))
        rw [fixGo_cons_fresh h1 h2'] at hfb ⊢
        rw [List.map_cons, List.nodup_cons]
        refine ⟨?_, ih _ _ hnd hsubr' (by simpa using hfb)⟩
        exact fixGo_keep_not_mem h8 dps rest _ _ _ (by simp) hnlrest (by simpa using hfb)
    · have h1' : dps.contains lp = false := by
        simp only [Bool.not_eq_true] at h1
        exact h1
      rw [fixGo_cons_nodps h1'] at hfb ⊢
      rw [List.map_cons, List.nodup_cons]
      refine ⟨?_, ih _ _ hnd hsubr (by simpa using hfb)⟩
      exact fixGo_keep_not_mem h8 dps rest _ _ _ hlpt hlp (by simpa using hfb)

/-- The dedup pass produces pairwise distinct local paths, none of which
was already seen. -/
theorem chooseGo_nodup :
    ∀ (records : List CdxRec) (seen : List (List Char)),
      ((chooseGo records seen).map (fun rl => rl.2)).Nodup ∧
        ∀ x ∈ (chooseGo records seen).map (fun rl => rl.2), seen.contains x = false := by
  intro records
  induction records with
  | nil =>
    intro seen
    exact ⟨List.nodup_nil, by simp [chooseGo]⟩
  | cons r rest ih =>
    intro seen
    by_cases hc : seen.contains (localPathForOriginal r.original r.mimetype) = true
    · have hcm : localPathForOriginal r.original r.mimetype ∈ seen := by simpa using hc
      have he : chooseGo (r :: rest) seen = chooseGo rest seen := by
        simp [chooseGo, hcm]
      rw [he]
      exact ih seen
    · have hc' : seen.contains (localPathForOriginal r.original r.mimetype) = false := by
        simp only [Bool.not_eq_true] at hc
        exact hc
      have hcm : localPathForOriginal r.original r.mimetype ∉ seen := by simpa using hc'
      have he : chooseGo (r :: rest) seen =
          (r, localPathForOriginal r.original r.mimetype) ::
            chooseGo rest (localPathForOriginal r.original r.mimetype :: seen) := by
        simp [chooseGo, hcm]
      rw [he]
      obtain ⟨ihn, ihs⟩ := ih (localPathForOriginal r.original r.mimetype :: seen)
      constructor
      · rw [List.map_cons, List.nodup_cons]
        refine ⟨?_, ihn⟩
        intro hm
        have := ihs _ hm
        rw [List.contains_cons] at this
        simp at this
      · intro x hx
        rw [List.map_cons, List.mem_cons] at hx
        rcases hx with e | hm
        · rw [e]
          exact hc'
        · have := ihs x hm
          rw [List.contains_cons] at this
          rcases Bool.or_eq_false_iff.mp this with ⟨_, h⟩
          exact h

/-!
Claim C1.
-/

/-- Claim C1 counterexample: a Selection Set on which the
conflict-resolution pass outputs a path (a.bin, the renamed a) that is
still a directory prefix of another chosen path (a.bin/y).  The hash
argument is irrelevant here, the fallback branch is not taken. -/
theorem claim1_counterexample :
    ((fixChosen (fun _ => cs "00000000") (chooseRecords
        [⟨cs "1", cs "https://example.org/a", cs "application/octet-stream", cs "200"⟩,
         ⟨cs "1", cs "https://example.org/a/x", cs "image/png", cs "200"⟩,
         ⟨cs "1", cs "https://example.org/a.bin/y", cs "image/png", cs "200"⟩])).1.map
          (fun rl => rl.2) = [cs "a.bin", cs "a/x", cs "a.bin/y"]) ∧
      cs "a.bin" ∈ dirPrefixesOf (fixChosen (fun _ => cs "00000000") (chooseRecords
        [⟨cs "1", cs "https://example.org/a", cs "application/octet-stream", cs "200"⟩,
         ⟨cs "1", cs "https://example.org/a/x", cs "image/png", cs "200"⟩,
         ⟨cs "1", cs "https://example.org/a.bin/y", cs "image/png", cs "200"⟩])).1 :=
  ⟨by decide, by decide⟩

/-- Claim C1 as amended: after the dedup pass and a conflict-resolution
pass that never needs the hash fallback, the chosen local paths are
pairwise distinct, for every hash function and record list; directory
prefix freedom is however not guaranteed (see the counterexample). -/
theorem claim1_amended_distinct :
    ∀ (hash8 : List Char → List Char) (records : List CdxRec),
      (fixChosen hash8 (chooseRecords records)).2 = false →
      ((fixChosen hash8 (chooseRecords records)).1.map (fun rl => rl.2)).Nodup := by
  intro h8 records hfb
  have hch := chooseGo_nodup records []
  unfold fixChosen at hfb ⊢
  by_cases hd : (dirPrefixesOf (chooseRecords records)).isEmpty = true
  · rw [if_pos hd]
    exact hch.1
  · rw [if_neg hd] at hfb ⊢
    exact fixGo_nodup h8 (dirPrefixesOf (chooseRecords records)) (chooseRecords records)
      ((chooseRecords records).map (fun rl => rl.2)) false hch.1 (fun x hx => hx) hfb

/-- Witness for claim C1 as amended, on the records of the docs example:
no fallback fires and the resulting paths are pairwise distinct. -/
theorem claim1_amended_distinct_witness :
    ((fixChosen (fun _ => cs "00000000") (chooseRecords
        [⟨cs "1", cs "https://example.org/docs", cs "text/html", cs "200"⟩,
         ⟨cs "1", cs "https://example.org/docs/file", cs "text/plain", cs "200"⟩])).1.map
          (fun rl => rl.2)).Nodup :=
  claim1_amended_distinct (fun _ => cs "00000000")
    [⟨cs "1", cs "https://example.org/docs", cs "text/html", cs "200"⟩,
     ⟨cs "1", cs "https://example.org/docs/file", cs "text/plain", cs "200"⟩] (by decide)

/-!
Claim C7 support: stripping and splitting of whitespace-padded tokens.
-/

theorem dropWhile_all_true {p : Char → Bool} {a : List Char}
    (h : ∀ x ∈ a, p x = true) (b : List Char) :
    List.dropWhile p (a ++ b) = List.dropWhile p b := by
  induction a with
  | nil => rfl
  | cons x t ih =>
    rw [List.cons_append, List.dropWhile_cons, if_pos (h x (List.mem_cons_self x t))]
    exact ih (fun y hy => h y (List.mem_cons_of_mem x hy))

theorem dropWhile_head_false {p : Char → Bool} {c : Char} (h : p c = false) (t : List Char) :
    List.dropWhile p (c :: t) = c :: t := by
  simp [List.dropWhile_cons, h]

theorem dropWhile_sfx (p : Char → Bool) (l : List Char) : List.dropWhile p l <:+ l := by
  induction l with
  | nil => simp
  | cons a t ih =>
    by_cases h : p a = true
    · rw [List.dropWhile_cons, if_pos h]
      exact ih.trans (List.suffix_cons a t)
    · rw [List.dropWhile_cons, if_neg (by simp [h])]

theorem pyStrip_self_parts {R : List Char} (h : pyStrip R = R) :
    pyLStrip R = R ∧ pyRStrip R = R := by
  have hsfx : pyLStrip R <:+ R := dropWhile_sfx _ R
  have hlen1 : (pyLStrip R).length ≤ R.length := hsfx.length_le
  have hlen2 : (pyRStrip (pyLStrip R)).length ≤ (pyLStrip R).length := by
    show ((pyLStrip R).reverse.dropWhile _).reverse.length ≤ _
    rw [List.length_reverse]
    have h2 := (dropWhile_sfx (fun c => isPySpace c) (pyLStrip R).reverse).length_le
    rw [List.length_reverse] at h2
    exact h2
  have hlenR : R.length = (pyRStrip (pyLStrip R)).length := by
    rw [show pyRStrip (pyLStrip R) = pyStrip R from rfl, h]
  have heq1 : (pyLStrip R).length = R.length := le_antisymm hlen1 (by omega)
  have hLe : pyLStrip R = R := hsfx.eq_of_length heq1
  refine ⟨hLe, ?_⟩
  rw [show pyStrip R = pyRStrip (pyLStrip R) from rfl, hLe] at h
  exact h

theorem pyRStrip_tok_ws (pre desc ws2 : List Char) (hd : desc ≠ [])
    (hds : ∀ a ∈ desc, isPySpace a = false) (hws2 : ∀ a ∈ ws2, isPySpace a = true) :
    pyRStrip (pre ++ desc ++ ws2) = pre ++ desc := by
  obtain ⟨d0, dt, hdr⟩ : ∃ a t, desc.reverse = a :: t := by
    cases hx : desc.reverse with
    | nil => exact absurd (List.reverse_eq_nil_iff.mp hx) hd
    | cons a t => exact ⟨a, t, rfl⟩
  have hd0 : isPySpace d0 = false :=
    hds d0 (List.mem_reverse.mp (hdr ▸ List.mem_cons_self d0 dt))
  have hrev : (pre ++ desc ++ ws2).reverse = ws2.reverse ++ (d0 :: (dt ++ pre.reverse)) := by
    rw [List.reverse_append, List.reverse_append, hdr]
    simp [List.append_assoc]
  show ((pre ++ desc ++ ws2).reverse.dropWhile _).reverse = _
  rw [hrev, dropWhile_all_true (fun a ha => hws2 a (List.mem_reverse.mp ha)),
    dropWhile_head_false hd0]
  have e : d0 :: (dt ++ pre.reverse) = desc.reverse ++ pre.reverse := by
    rw [hdr]
    simp
  rw [e, ← List.reverse_append, List.reverse_reverse]

theorem pyStrip_sandwich {ws1 sp ws2 url desc : List Char}
    (hws1 : ∀ a ∈ ws1, isPySpace a = true) (hws2 : ∀ a ∈ ws2, isPySpace a = true)
    (hu : url ≠ []) (hus : ∀ a ∈ url, isPySpace a = false)
    (hd : desc ≠ []) (hds : ∀ a ∈ desc, isPySpace a = false) :
    pyStrip (ws1 ++ url ++ sp ++ desc ++ ws2) = url ++ sp ++ desc := by
  obtain ⟨u0, ut, hu0⟩ : ∃ a t, url = a :: t := by
    cases hx : url with
    | nil => exact absurd hx hu
    | cons a t => exact ⟨a, t, rfl⟩
  have e1 : ws1 ++ url ++ sp ++ desc ++ ws2 = ws1 ++ (u0 :: (ut ++ sp ++ desc ++ ws2)) := by
    rw [hu0]
    simp [List.append_assoc]
  have hu0s : isPySpace u0 = false := hus u0 (hu0 ▸ List.mem_cons_self u0 ut)
  have hL : pyLStrip (ws1 ++ url ++ sp ++ desc ++ ws2)
      = u0 :: (ut ++ sp ++ desc ++ ws2) := by
    show List.dropWhile _ _ = _
    rw [e1, dropWhile_all_true hws1, dropWhile_head_false hu0s]
  have e2 : u0 :: (ut ++ sp ++ desc ++ ws2) = (u0 :: (ut ++ sp)) ++ desc ++ ws2 := by
    simp [List.append_assoc]
  have hRs : pyRStrip (u0 :: (ut ++ sp ++ desc ++ ws2)) = (u0 :: (ut ++ sp)) ++ desc := by
    rw [e2]
    exact pyRStrip_tok_ws (u0 :: (ut ++ sp)) desc ws2 hd hds hws2
  show pyRStrip (pyLStrip _) = _
  rw [hL, hRs, hu0]
  simp [List.append_assoc]

theorem pyStrip_append_tok {R desc : List Char}
    (hR : pyStrip R = R) (hRne : R ≠ [])
    (hd : desc ≠ []) (hds : ∀ a ∈ desc, isPySpace a = false) :
    pyStrip (R ++ ' ' :: desc) = R ++ ' ' :: desc := by
  have hL : pyLStrip R = R := (pyStrip_self_parts hR).1
  obtain ⟨r0, rt, hr0⟩ : ∃ a t, R = a :: t := by
    cases hx : R with
    | nil => exact absurd hx hRne
    | cons a t => exact ⟨a, t, rfl⟩
  have hr0s : isPySpace r0 = false := by
    cases hx : isPySpace r0
    · rfl
    · exfalso
      rw [hr0] at hL
      simp only [pyLStrip, List.dropWhile_cons, hx, if_true] at hL
      have hlen := (dropWhile_sfx (fun c => isPySpace c) rt).length_le
      rw [hL] at hlen
      simp at hlen
  have h1 : pyLStrip (R ++ ' ' :: desc) = R ++ ' ' :: desc := by
    rw [hr0, List.cons_append]
    exact dropWhile_head_false hr0s _
  have h2 : pyRStrip (R ++ ' ' :: desc) = R ++ ' ' :: desc := by
    have h3 := pyRStrip_tok_ws (R ++ [' ']) desc [] hd hds (fun a ha => absurd ha (by simp))
    simpa [List.append_assoc] using h3
  show pyRStrip (pyLStrip _) = _
  rw [h1, h2]

theorem pySplitWsGo_nonspace {u : List Char} (hu : ∀ a ∈ u, isPySpace a = false) :
    ∀ (l acc : List Char), pySplitWsGo (u ++ l) acc = pySplitWsGo l (u.reverse ++ acc) := by
  induction u with
  | nil => intro l acc; simp
  | cons c t ih =>
    intro l acc
    have hc : isPySpace c = false := hu c (List.mem_cons_self c t)
    show pySplitWsGo (c :: (t ++ l)) acc = _
    rw [show pySplitWsGo (c :: (t ++ l)) acc = pySplitWsGo (t ++ l) (c :: acc) from by
      simp [pySplitWsGo, hc]]
    rw [ih (fun a ha => hu a (List.mem_cons_of_mem c ha)) l (c :: acc)]
    simp [List.append_assoc]

theorem pySplitWsGo_space_nil {u : List Char} (hu : ∀ a ∈ u, isPySpace a = true) :
    ∀ (l : List Char), pySplitWsGo (u ++ l) [] = pySplitWsGo l [] := by
  induction u with
  | nil => intro l; rfl
  | cons c t ih =>
    intro l
    have hc : isPySpace c = true := hu c (List.mem_cons_self c t)
    show pySplitWsGo (c :: (t ++ l)) [] = _
    rw [show pySplitWsGo (c :: (t ++ l)) [] = pySplitWsGo (t ++ l) [] from by
      simp [pySplitWsGo, hc]]
    exact ih (fun a ha => hu a (List.mem_cons_of_mem c ha)) l

theorem pySplitWs_two_tok {url sp desc : List Char}
    (hu : url ≠ []) (hus : ∀ a ∈ url, isPySpace a = false)
    (hsp : sp ≠ []) (hsps : ∀ a ∈ sp, isPySpace a = true)
    (hd : desc ≠ []) (hds : ∀ a ∈ desc, isPySpace a = false) :
    pySplitWs (url ++ sp ++ desc) = [url, desc] := by
  obtain ⟨s0, st, hs0⟩ : ∃ a t, sp = a :: t := by
    cases hx : sp with
    | nil => exact absurd hx hsp
    | cons a t => exact ⟨a, t, rfl⟩
  have hne : url.reverse.isEmpty = false := by
    cases hx : url.reverse with
    | nil => exact absurd (List.reverse_eq_nil_iff.mp hx) hu
    | cons a t => rfl
  show pySplitWsGo (url ++ sp ++ desc) [] = _
  rw [show url ++ sp ++ desc = url ++ (sp ++ desc) from by simp [List.append_assoc],
    pySplitWsGo_nonspace hus (sp ++ desc) [], List.append_nil, hs0]
  rw [show pySplitWsGo ((s0 :: st) ++ desc) url.reverse
      = url.reverse.reverse :: pySplitWsGo (st ++ desc) [] from by
    simp [pySplitWsGo, hsps s0 (hs0 ▸ List.mem_cons_self s0 st), hne]]
  rw [List.reverse_reverse,
    pySplitWsGo_space_nil (fun a ha => hsps a (hs0 ▸ List.mem_cons_of_mem s0 ha)) desc]
  congr 1
  rw [show pySplitWsGo desc [] = pySplitWsGo ([] : List Char) (desc.reverse ++ []) from by
    conv_lhs => rw [show desc = desc ++ ([] : List Char) from (List.append_nil desc).symm]
    exact pySplitWsGo_nonspace hds [] []]
  rw [List.append_nil]
  show (if desc.reverse.isEmpty then [] else [desc.reverse.reverse]) = [desc]
  have hne2 : desc.reverse.isEmpty = false := by
    cases hx : desc.reverse with
    | nil => exact absurd (List.reverse_eq_nil_iff.mp hx) hd
    | cons a t => rfl
  rw [if_neg (by simp [hne2]), List.reverse_reverse]

theorem splitOnChar_no_sep {c : Char} : ∀ {x : List Char}, (∀ a ∈ x, ¬ a = c) →
    splitOnChar c x = [x] := by
  intro x
  induction x with
  | nil => intro _; rfl
  | cons a as ih =>
    intro h
    have ha : (a == c) = false := beq_eq_false_iff_ne.mpr (h a (List.mem_cons_self a as))
    rw [splitOnChar_cons, ih (fun b hb => h b (List.mem_cons_of_mem a hb))]
    simp [ha]

theorem splitOnChar_joinSep_no_sep {c : Char} :
    ∀ {l : List (List Char)}, l ≠ [] → (∀ x ∈ l, ∀ a ∈ x, ¬ a = c) →
      splitOnChar c (joinSep [c] l) = l := by
  intro l
  induction l with
  | nil => intro h _; exact absurd rfl h
  | cons x rest ih =>
    intro _ h
    cases rest with
    | nil =>
      show splitOnChar c (joinSep [c] [x]) = [x]
      rw [show joinSep [c] [x] = x from rfl]
      exact splitOnChar_no_sep (h x (List.mem_cons_self x []))
    | cons y t =>
      have e : joinSep [c] (x :: y :: t) = x ++ c :: joinSep [c] (y :: t) := by
        show x ++ [c] ++ joinSep [c] (y :: t) = _
        simp [List.append_assoc]
      rw [e, splitOnChar_sep_append c (h x (List.mem_cons_self x _)) _,
        ih (by simp) (fun z hz => h z (List.mem_cons_of_mem x hz))]

theorem filterMap_map_eq_map {α β γ : Type} {f : α → β} {g : β → Option γ} {h : α → γ} :
    ∀ {l : List α}, (∀ x ∈ l, g (f x) = some (h x)) → (l.map f).filterMap g = l.map h := by
  intro l
  induction l with
  | nil => intro _; rfl
  | cons a t ih =>
    intro hp
    simp only [List.map_cons, List.filterMap_cons, hp a (List.mem_cons_self a t)]
    rw [ih (fun x hx => hp x (List.mem_cons_of_mem a hx))]

theorem space_ne_comma {a : Char} (h : isPySpace a = true) : ¬ a = ',' := by
  intro e
  rw [e] at h
  exact absurd h (by decide)

theorem candText_no_comma {c : SrcsetCand} (h : candOK c) :
    ∀ a ∈ candText c, ¬ a = ',' := by
  obtain ⟨hw1, hsp, hw2, _, _, _, hu, hd⟩ := h
  intro a ha
  simp only [candText, List.append_assoc, List.mem_append] at ha
  rcases ha with h1 | h2 | h3 | h4 | h5
  · exact space_ne_comma (hw1 a h1)
  · exact (hu a h2).2
  · exact space_ne_comma (hsp a h3)
  · exact (hd a h4).2
  · exact space_ne_comma (hw2 a h5)

theorem srcsetPart_cand (scope : List (List Char)) (rp : List Char) (c : SrcsetCand)
    (hok : candOK c)
    (hR : pyStrip (rewriteOneUrlValue c.url scope rp) = rewriteOneUrlValue c.url scope rp)
    (hRne : rewriteOneUrlValue c.url scope rp ≠ []) :
    srcsetPart scope rp (pyStrip (candText c))
      = some (rewriteOneUrlValue c.url scope rp ++ ' ' :: c.desc) := by
  obtain ⟨hw1, hsp, hw2, hspne, hune, hdne, hu, hd⟩ := hok
  have hus : ∀ a ∈ c.url, isPySpace a = false := fun a ha => (hu a ha).1
  have hds : ∀ a ∈ c.desc, isPySpace a = false := fun a ha => (hd a ha).1
  have hstrip : pyStrip (candText c) = c.url ++ c.sp ++ c.desc :=
    pyStrip_sandwich hw1 hw2 hune hus hdne hds
  obtain ⟨u0, ut, hu0⟩ : ∃ a t, c.url = a :: t := by
    cases hx : c.url with
    | nil => exact absurd hx hune
    | cons a t => exact ⟨a, t, rfl⟩
  obtain ⟨d0, dt, hd0⟩ : ∃ a t, c.desc = a :: t := by
    cases hx : c.desc with
    | nil => exact absurd hx hdne
    | cons a t => exact ⟨a, t, rfl⟩
  have hne2 : ¬((c.url ++ c.sp ++ c.desc).isEmpty = true) := by
    rw [hu0]
    simp
  have hsplit : pySplitWs (c.url ++ c.sp ++ c.desc) = [c.url, c.desc] :=
    pySplitWs_two_tok hune hus hspne hsp hdne hds
  rw [hstrip]
  show (if (c.url ++ c.sp ++ c.desc).isEmpty = true then none
    else match pySplitWs (c.url ++ c.sp ++ c.desc) with
      | [] => none
      | url :: restToks =>
        some (pyStrip (rewriteOneUrlValue url scope rp ++
          if (joinSep (cs " ") restToks).isEmpty then [] else ' ' :: joinSep (cs " ") restToks)))
    = _
  rw [if_neg hne2, hsplit]
  show some (pyStrip (rewriteOneUrlValue c.url scope rp ++
      if c.desc.isEmpty then [] else ' ' :: c.desc)) = _
  rw [hd0]
  show some (pyStrip (rewriteOneUrlValue c.url scope rp ++ ' ' :: (d0 :: dt))) = _
  rw [pyStrip_append_tok hR hRne (by simp) (fun a ha => hds a (hd0 ▸ ha))]

/-- Claim C7 counterexample: rewrite_html does not preserve the original
spacing of a srcset value: a double space between URL and descriptor and
after a comma are both normalised to single spacing, even though every URL
in the value is left untouched by the rewriter. -/
theorem claim7_counterexample :
    rewriteHtml (cs "<img srcset=\"a.jpg  1x,  b.jpg 2x\">") [] [] [cs "example.org"]
        = cs "<img srcset=\"a.jpg 1x, b.jpg 2x\">" ∧
      rewriteHtml (cs "<img srcset=\"a.jpg  1x,  b.jpg 2x\">") [] [] [cs "example.org"]
        ≠ cs "<img srcset=\"a.jpg  1x,  b.jpg 2x\">" :=
  ⟨by decide, by decide⟩

/-- Claim C7 as amended: rewrite_html rewrites the URL token of each
comma-separated srcset candidate independently and keeps that candidate's
descriptor and the attribute's quote character, but it does NOT keep the
original spacing: candidate separators are normalised to a comma and a
single space, URL and descriptor are joined by a single space, and the
surrounding padding is stripped.  The first conjunct states this for the
value-level rewriter over every well-formed candidate list whose rewritten
URLs are themselves stripped and nonempty; the second shows the quote
character (here a single quote) surviving a full rewrite_html pass. -/
theorem claim7_amended :
    (∀ (scope : List (List Char)) (rp : List Char) (cands : List SrcsetCand),
        (∀ c ∈ cands, candOK c) →
        (∀ c ∈ cands, pyStrip (rewriteOneUrlValue c.url scope rp)
            = rewriteOneUrlValue c.url scope rp ∧ rewriteOneUrlValue c.url scope rp ≠ []) →
        srcsetRewriteValue scope rp (joinSep (cs ",") (cands.map candText))
          = joinSep (cs ", ")
              (cands.map (fun c => rewriteOneUrlValue c.url scope rp ++ ' ' :: c.desc))) ∧
      rewriteHtml (cs "<img srcset=" ++ ['\x27'] ++ cs "https://example.org/i.jpg 1x"
            ++ ['\x27'] ++ cs ">") [] [] [cs "example.org"]
        = cs "<img srcset=" ++ ['\x27'] ++ cs "i.jpg 1x" ++ ['\x27'] ++ cs ">" := by
  constructor
  · intro scope rp cands hok hR
    cases cands with
    | nil => rfl
    | cons c0 rest =>
      have hcomma : ∀ x ∈ (c0 :: rest).map candText, ∀ a ∈ x, ¬ a = ',' := by
        intro x hx
        rw [List.mem_map] at hx
        obtain ⟨c, hc, rfl⟩ := hx
        exact candText_no_comma (hok c hc)
      have hsplitAll : splitOnChar ',' (joinSep [','] ((c0 :: rest).map candText))
          = (c0 :: rest).map candText :=
        splitOnChar_joinSep_no_sep (by simp) hcomma
      have hpt : ∀ c ∈ c0 :: rest,
          srcsetPart scope rp (pyStrip (candText c))
            = some (rewriteOneUrlValue c.url scope rp ++ ' ' :: c.desc) :=
        fun c hc => srcsetPart_cand scope rp c (hok c hc) (hR c hc).1 (hR c hc).2
      show joinSep (cs ", ")
          (((splitOnChar ',' (joinSep (cs ",") ((c0 :: rest).map candText))).map
            pyStrip).filterMap (srcsetPart scope rp)) = _
      rw [show (cs ",") = [','] from rfl, hsplitAll, List.map_map]
      exact congrArg (joinSep (cs ", ")) (filterMap_map_eq_map hpt)
  · decide

/-- Witness for claim C7 as amended: two concrete candidates with ragged
spacing normalise to single spacing with the URLs rewritten. -/
theorem claim7_amended_witness :
    srcsetRewriteValue [cs "example.org"] []
        (joinSep (cs ",")
          ([(⟨[], cs "https://example.org/i.jpg", cs "  ", cs "1x", []⟩ : SrcsetCand),
            ⟨cs "  ", cs "https://example.org/i2.jpg", cs " ", cs "2x", cs " "⟩].map candText))
      = joinSep (cs ", ")
          ([(⟨[], cs "https://example.org/i.jpg", cs "  ", cs "1x", []⟩ : SrcsetCand),
            ⟨cs "  ", cs "https://example.org/i2.jpg", cs " ", cs "2x", cs " "⟩].map
            (fun c => rewriteOneUrlValue c.url [cs "example.org"] [] ++ ' ' :: c.desc)) :=
  claim7_amended.1 [cs "example.org"] []
    [(⟨[], cs "https://example.org/i.jpg", cs "  ", cs "1x", []⟩ : SrcsetCand),
     ⟨cs "  ", cs "https://example.org/i2.jpg", cs " ", cs "2x", cs " "⟩]
    (by decide) (by decide)

/-!
Claim C8 support: the age-gate stripper without matches, and newline
collapsing.
-/

theorem subPat_none {m : List Char → Option (List Char)} {repl l : List Char}
    (h : findPat m l = none) : subPat m repl l = l := by
  show subPatF m repl (l.length + 1) l = l
  simp only [subPatF, h]

theorem stripAgeGate_no_sig {t : List Char} (h : noAgSignature t) :
    stripAgeGateHtml t = collapseNl t := by
  obtain ⟨h1, h2, h3, h4, h5, h6, h7⟩ := h
  show collapseNl (subPat agCssBlockMatchAt (cs "\n") (subPat agLinkAssetMatchAt []
    (subPat agScriptAssetMatchAt [] (subPat agScriptIdMatchAt [] (subPat agLinkIdMatchAt []
      (subPat agStyleMatchAt [] (subPat agTemplateMatchAt [] t))))))) = collapseNl t
  rw [subPat_none h1, subPat_none h2, subPat_none h3, subPat_none h4, subPat_none h5,
    subPat_none h6, subPat_none h7]

theorem collapseNlGo_id : ∀ (l : List Char) (k : Nat),
    noNl4Go k l = true → collapseNlGo k l = l := by
  intro l
  induction l with
  | nil => intro k _; rfl
  | cons c rest ih =>
    intro k h
    by_cases hc : c = '\n'
    · subst hc
      by_cases hk : 3 ≤ k
      · exfalso
        have hyp : noNl4Go k ('\n' :: rest) = false := by
          simp [noNl4Go, hk]
        rw [hyp] at h
        cases h
      · have h' : noNl4Go (k + 1) rest = true := by
          simpa [noNl4Go, hk] using h
        have hstep : collapseNlGo k ('\n' :: rest) = '\n' :: collapseNlGo (k + 1) rest := by
          simp [collapseNlGo, hk]
        rw [hstep, ih (k + 1) h']
    · have hcb : (c == '\n') = false := beq_eq_false_iff_ne.mpr hc
      have h' : noNl4Go 0 rest = true := by
        simpa [noNl4Go, hcb] using h
      have hstep : collapseNlGo k (c :: rest) = c :: collapseNlGo 0 rest := by
        simp [collapseNlGo, hcb]
      rw [hstep, ih 0 h']

theorem collapseNlGo_no4 : ∀ (l : List Char) (k : Nat),
    k ≤ 3 → noNl4Go k (collapseNlGo k l) = true := by
  intro l
  induction l with
  | nil => intro k _; rfl
  | cons c rest ih =>
    intro k hk3
    by_cases hc : c = '\n'
    · subst hc
      by_cases hk : 3 ≤ k
      · have hstep : collapseNlGo k ('\n' :: rest) = collapseNlGo k rest := by
          simp [collapseNlGo, hk]
        rw [hstep]
        exact ih k hk3
      · have h1 : collapseNlGo k ('\n' :: rest) = '\n' :: collapseNlGo (k + 1) rest := by
          simp [collapseNlGo, hk]
        rw [h1]
        have h2 : noNl4Go k ('\n' :: collapseNlGo (k + 1) rest)
            = noNl4Go (k + 1) (collapseNlGo (k + 1) rest) := by
          simp [noNl4Go, hk]
        rw [h2]
        exact ih (k + 1) (by omega)
    · have hcb : (c == '\n') = false := beq_eq_false_iff_ne.mpr hc
      have h1 : collapseNlGo k (c :: rest) = c :: collapseNlGo 0 rest := by
        simp [collapseNlGo, hcb]
      rw [h1]
      have h2 : noNl4Go k (c :: collapseNlGo 0 rest) = noNl4Go 0 (collapseNlGo 0 rest) := by
        simp [noNl4Go, hcb]
      rw [h2]
      exact ih 0 (by omega)

/-- Claim C8 counterexample: a text with none of the seven age-gate
signatures and NO run of four or more blank lines (no five consecutive
newlines), in which a run of exactly three blank lines (four newlines) is
nevertheless reduced by the stripper.  This refutes the reading that the
collapsing touches only runs of four or more blank lines. -/
theorem claim8_counterexample :
    noAgSignature (cs "a\n\n\n\nb") ∧
      hasSub (cs "\n\n\n\n\n") (cs "a\n\n\n\nb") = false ∧
      stripAgeGateHtml (cs "a\n\n\n\nb") = cs "a\n\n\nb" :=
  ⟨by decide, by decide, by decide⟩

/-- Claim C8 as amended: on any text with none of the seven age-gate
signatures the stripper acts exactly as the final blank-line collapsing;
that collapsing is the identity precisely when the text has no run of four
or more consecutive newlines (three or more blank lines), and its output
never contains four consecutive newlines, i.e. keeps at most two
consecutive blank lines. -/
theorem claim8_amended :
    ∀ (t : List Char),
      (noAgSignature t → stripAgeGateHtml t = collapseNl t) ∧
        (noNl4 t = true → collapseNl t = t) ∧
        noNl4 (collapseNl t) = true := by
  intro t
  exact ⟨fun h => stripAgeGate_no_sig h, fun h => collapseNlGo_id t 0 h,
    collapseNlGo_no4 t 0 (by omega)⟩

/-- Witness for claim C8 as amended: a signature-free text whose longest
newline run has length three passes through the stripper unchanged. -/
theorem claim8_amended_witness :
    stripAgeGateHtml (cs "<p>a</p>\n\n\nok") = collapseNl (cs "<p>a</p>\n\n\nok") ∧
      collapseNl (cs "<p>a</p>\n\n\nok") = cs "<p>a</p>\n\n\nok" ∧
      noNl4 (collapseNl (cs "<p>a</p>\n\n\nok")) = true :=
  ⟨(claim8_amended (cs "<p>a</p>\n\n\nok")).1 (by decide),
   (claim8_amended (cs "<p>a</p>\n\n\nok")).2.1 (by decide),
   (claim8_amended (cs "<p>a</p>\n\n\nok")).2.2⟩

/-!
Claim C9.
-/

/-- Claim C9 counterexample: on the two records of the claim the
conflict-resolution pass performs NO rename at all: the pretty-URL rule
has already mapped /docs (text/html) to docs/index.html, so both chosen
paths pass through the conflict pass unchanged. -/
theorem claim9_counterexample :
    (fixChosen (fun _ => cs "00000000") (chooseRecords
        [⟨cs "1", cs "https://example.org/docs", cs "text/html", cs "200"⟩,
         ⟨cs "1", cs "https://example.org/docs/file", cs "text/plain", cs "200"⟩])).1
      = chooseRecords
        [⟨cs "1", cs "https://example.org/docs", cs "text/html", cs "200"⟩,
         ⟨cs "1", cs "https://example.org/docs/file", cs "text/plain", cs "200"⟩] ∧
      (chooseRecords
        [⟨cs "1", cs "https://example.org/docs", cs "text/html", cs "200"⟩,
         ⟨cs "1", cs "https://example.org/docs/file", cs "text/plain", cs "200"⟩]).map
          (fun rl => rl.2)
      = [cs "docs/index.html", cs "docs/file"] :=
  ⟨by decide, by decide⟩

/-- Claim C9 as amended: no rename is needed in the claimed scenario.  For
every hash function the conflict pass returns the docs Selection Set
unchanged with the fallback flag false; the mapper has already assigned
/docs the path docs/index.html, the two paths are distinct, and neither
chosen path is a directory prefix of the other, so the directory docs/ is
free for the second record. -/
theorem claim9_amended_no_conflict :
    ∀ (hash8 : List Char → List Char),
      fixChosen hash8 (chooseRecords
          [⟨cs "1", cs "https://example.org/docs", cs "text/html", cs "200"⟩,
           ⟨cs "1", cs "https://example.org/docs/file", cs "text/plain", cs "200"⟩])
        = (chooseRecords
            [⟨cs "1", cs "https://example.org/docs", cs "text/html", cs "200"⟩,
             ⟨cs "1", cs "https://example.org/docs/file", cs "text/plain", cs "200"⟩], false) ∧
      ((chooseRecords
          [⟨cs "1", cs "https://example.org/docs", cs "text/html", cs "200"⟩,
           ⟨cs "1", cs "https://example.org/docs/file", cs "text/plain", cs "200"⟩]).map
            (fun rl => rl.2)).Nodup ∧
      ∀ p ∈ (chooseRecords
          [⟨cs "1", cs "https://example.org/docs", cs "text/html", cs "200"⟩,
           ⟨cs "1", cs "https://example.org/docs/file", cs "text/plain", cs "200"⟩]).map
            (fun rl => rl.2),
        p ∉ dirPrefixesOf (chooseRecords
          [⟨cs "1", cs "https://example.org/docs", cs "text/html", cs "200"⟩,
           ⟨cs "1", cs "https://example.org/docs/file", cs "text/plain", cs "200"⟩]) := by
  intro h8
  exact ⟨rfl, by decide, by decide⟩

/-- Witness for claim C9 as amended, at a concrete hash function. -/
theorem claim9_amended_no_conflict_witness :
    fixChosen (fun _ => cs "0") (chooseRecords
        [⟨cs "1", cs "https://example.org/docs", cs "text/html", cs "200"⟩,
         ⟨cs "1", cs "https://example.org/docs/file", cs "text/plain", cs "200"⟩])
      = (chooseRecords
          [⟨cs "1", cs "https://example.org/docs", cs "text/html", cs "200"⟩,
           ⟨cs "1", cs "https://example.org/docs/file", cs "text/plain", cs "200"⟩], false) ∧
      cs "docs/index.html" ∉ dirPrefixesOf (chooseRecords
        [⟨cs "1", cs "https://example.org/docs", cs "text/html", cs "200"⟩,
         ⟨cs "1", cs "https://example.org/docs/file", cs "text/plain", cs "200"⟩]) :=
  ⟨(claim9_amended_no_conflict (fun _ => cs "0")).1,
   (claim9_amended_no_conflict (fun _ => cs "0")).2.2 (cs "docs/index.html") (by decide)⟩
